import Mathlib

/-!
Verification of the message-as-database leaderboard core.

JavaScript strings are modeled as lists of Unicode code points (`Str`);
JavaScript numbers occurring in this program are integer-valued or NaN and are
modeled as `Option Int` (`none` models NaN).  Each definition below is a direct
translation of the corresponding function of the storage, parser, renderer and
sync modules of the repository.
-/

namespace LBSync

/-- JS strings as lists of code points. -/
abbrev Str := List Char

/-- JS numbers of this program: integer-valued or NaN (`none`). -/
abbrev JsNum := Option Int

/-- Whitespace as recognized by the JS trim/split operations used here. -/
def isWs (c : Char) : Bool :=
  c == ' ' || c == '\t' || c == '\n' || c == '\r'

/-- Model of `String.prototype.trimStart`. -/
def jsTrimLeft (s : Str) : Str := s.dropWhile isWs

/-- Drop trailing whitespace. -/
def dropTrailingWs (s : Str) : Str := (s.reverse.dropWhile isWs).reverse

/-- Model of `String.prototype.trim`. -/
def jsTrim (s : Str) : Str := dropTrailingWs (jsTrimLeft s)

/-- Model of `s.split(sep)` for a single-character separator. -/
def jsSplit (sep : Char) (s : Str) : List Str := s.splitOn sep

/-- Index of the first occurrence of `pat` in `s` (model of `s.indexOf(pat)`;
`none` models the JS result `-1`). -/
def firstSublistIdx : Str → Str → Option Nat
  | [], pat => if pat.isEmpty then some 0 else none
  | c :: rest, pat =>
    if List.isPrefixOf pat (c :: rest) then some 0
    else (firstSublistIdx rest pat).map (· + 1)

/-- Model of `s.substring(a, b)` (arguments are swapped by JS when `a > b`,
and clamped to the string length). -/
def jsSubstring (s : Str) (a b : Nat) : Str :=
  (s.take (max a b)).drop (min a b)

/-- The decimal digit character for `d % 10`-style values. -/
def digitChar (d : Nat) : Char :=
  match d with
  | 0 => '0' | 1 => '1' | 2 => '2' | 3 => '3' | 4 => '4'
  | 5 => '5' | 6 => '6' | 7 => '7' | 8 => '8' | _ => '9'

/-- Reversed decimal digits of `n`, with explicit fuel (`fuel ≥ n` suffices). -/
def natDigitsRevAux : Nat → Nat → Str
  | 0, _ => []
  | fuel + 1, n => if n = 0 then [] else digitChar (n % 10) :: natDigitsRevAux fuel (n / 10)

/-- Decimal string of a natural number (JS number-to-string for naturals). -/
def natDecStr (n : Nat) : Str :=
  if n = 0 then ['0'] else (natDigitsRevAux n n).reverse

/-- JS number-to-string: `"NaN"` for NaN, decimal with optional minus sign otherwise. -/
def jsNumToStr (x : JsNum) : Str :=
  match x with
  | none => "NaN".data
  | some i => if i < 0 then '-' :: natDecStr i.natAbs else natDecStr i.natAbs

/-- Numeric value of a digit character. -/
def digitVal (c : Char) : Nat := c.toNat - 48

/-- Value of a string of decimal digits. -/
def digitsVal (ds : Str) : Nat := ds.foldl (fun a c => 10 * a + digitVal c) 0

/-- Longest leading run of decimal digits, as a number (`none` if there is none). -/
def parseDigits (s : Str) : Option Nat :=
  let ds := s.takeWhile Char.isDigit
  if ds.isEmpty then none else some (digitsVal ds)

/-- Model of JS `parseInt(s, 10)`: skip leading whitespace, optional sign,
longest digit run; NaN (`none`) when no digits follow. -/
def jsParseInt (s : Str) : JsNum :=
  match s.dropWhile isWs with
  | '-' :: r => (parseDigits r).map (fun n => -(n : Int))
  | '+' :: r => (parseDigits r).map (fun n => (n : Int))
  | r => (parseDigits r).map (fun n => (n : Int))

/-- Gregorian leap year. -/
def isLeapYear (y : Nat) : Bool :=
  (y % 4 == 0 && y % 100 != 0) || y % 400 == 0

/-- Days in a month. -/
def daysInMonth (y m : Nat) : Nat :=
  if m = 2 then (if isLeapYear y then 29 else 28)
  else if m = 4 ∨ m = 6 ∨ m = 9 ∨ m = 11 then 30
  else 31

/-- Model of JS `new Date(s)` restricted to the ISO `YYYY-MM-DD` strings this
program feeds it: `some key` for a calendar-valid date, with `key` increasing
exactly in calendar order, and `none` (Invalid Date, i.e. NaN time value) for
calendar-invalid or non-ISO strings. -/
def parseISODate (s : Str) : Option Nat :=
  match s with
  | [y1, y2, y3, y4, '-', m1, m2, '-', d1, d2] =>
    if y1.isDigit && y2.isDigit && y3.isDigit && y4.isDigit &&
       m1.isDigit && m2.isDigit && d1.isDigit && d2.isDigit then
      let y := digitsVal [y1, y2, y3, y4]
      let m := digitsVal [m1, m2]
      let d := digitsVal [d1, d2]
      if 1 ≤ m && m ≤ 12 && 1 ≤ d && d ≤ daysInMonth y m then
        some (y * 10000 + m * 100 + d)
      else none
    else none
  | _ => none

/-- The regex `/^\d{4}-\d{2}-\d{2}$/` used by `validatePlayerData`. -/
def strictDateFormat (s : Str) : Bool :=
  match s with
  | [y1, y2, y3, y4, '-', m1, m2, '-', d1, d2] =>
    y1.isDigit && y2.isDigit && y3.isDigit && y4.isDigit &&
    m1.isDigit && m2.isDigit && d1.isDigit && d2.isDigit
  | _ => false

/-! ## Storage module (`storage.js`) -/

/-- One player record; every construction site in the source populates all
seven fields, so they are plain structure fields here. -/
structure Player where
  userId : Str
  username : Str
  currentRank : Str
  currentRankScore : JsNum
  peakRank : Str
  peakRankScore : JsNum
  lastUpdated : Str
  deriving DecidableEq, Repr, Inhabited

/-- `[DATA:v1]`, the start marker (version tag `v1`). -/
def dataStartMarker : Str := "[DATA:v1]".data

/-- `[/DATA]`, the end marker. -/
def dataEndMarker : Str := "[/DATA]".data

/-- One line of `encodePlayerData`: the seven fields joined with `|`
(`player.username || 'Unknown'` for the name). -/
def encodePlayerLine (p : Player) : Str :=
  List.intercalate "|".data
    [p.userId,
     if p.username.isEmpty then "Unknown".data else p.username,
     p.currentRank,
     jsNumToStr p.currentRankScore,
     p.peakRank,
     jsNumToStr p.peakRankScore,
     p.lastUpdated]

/-- `encodePlayerData`: one `|`-joined line per player, joined with `\n`. -/
def encodePlayerData (players : List Player) : Str :=
  List.intercalate "\n".data (players.map encodePlayerLine)

/-- Decoding of one data line: split on `|`, require at least 7 parts
(otherwise the line is discarded with a warning, modeled by `none`). -/
def decodePlayerLine (line : Str) : Option Player :=
  match jsSplit '|' line with
  | p0 :: p1 :: p2 :: p3 :: p4 :: p5 :: p6 :: _ =>
    some { userId := p0, username := p1, currentRank := p2,
           currentRankScore := jsParseInt p3, peakRank := p4,
           peakRankScore := jsParseInt p5, lastUpdated := p6 }
  | _ => none

/-- `decodePlayerData`. -/
def decodePlayerData (dataString : Str) : List Player :=
  if dataString.isEmpty || (jsTrim dataString).isEmpty then []
  else
    (((jsTrim dataString).splitOn '\n').filter
      (fun line => !(jsTrim line).isEmpty)).filterMap decodePlayerLine

/-- `lastProcessedMessageId || 'none'`. -/
def encodeCursor (cursor : Option Str) : Str :=
  match cursor with
  | none => "none".data
  | some s => if s.isEmpty then "none".data else s

/-- `encodeState`: marker, `LAST:` line, player data, end marker, `\n`-joined. -/
def encodeState (lastProcessedMessageId : Option Str) (players : List Player) : Str :=
  List.intercalate "\n".data
    [dataStartMarker,
     "LAST:".data ++ encodeCursor lastProcessedMessageId,
     encodePlayerData players,
     dataEndMarker]

/-- Result of `decodeState`. -/
structure DecodedState where
  lastProcessedMessageId : Option Str
  players : List Player
  deriving DecidableEq, Repr

/-- The regex `/^LAST:(.+)$/` applied to one line (which contains no `\n`):
the group is the non-empty remainder after `LAST:`. -/
def matchLastLine (line : Str) : Option Str :=
  if List.isPrefixOf "LAST:".data line then
    let rest := line.drop 5
    if rest.isEmpty then none else some rest
  else none

/-- `decodeState`: locate the markers by substring search, trim the section
between them, read the `LAST:` line and decode the remaining player lines.
A missing marker (or empty content) yields cursor `null` and no players. -/
def decodeState (messageContent : Str) : DecodedState :=
  if messageContent.isEmpty then ⟨none, []⟩
  else
    match firstSublistIdx messageContent dataStartMarker,
          firstSublistIdx messageContent dataEndMarker with
    | some startIdx, some endIdx =>
      let dataSection :=
        jsTrim (jsSubstring messageContent (startIdx + dataStartMarker.length) endIdx)
      let lines := jsSplit '\n' dataSection
      let lastLine := lines.headD []
      let cursor :=
        match matchLastLine lastLine with
        | some g => if g = "none".data then none else some g
        | none => none
      let playerDataString := List.intercalate "\n".data (lines.drop 1)
      ⟨cursor, decodePlayerData playerDataString⟩
    | _, _ => ⟨none, []⟩

/-- `new Date(a) < new Date(b)`; comparisons against NaN are false. -/
def jsDateLt (a b : Str) : Bool :=
  match parseISODate a, parseISODate b with
  | some x, some y => x < y
  | _, _ => false

/-- Result of `upsertPlayer`. -/
structure UpsertResult where
  players : List Player
  updated : Bool
  deriving DecidableEq, Repr

/-- `upsertPlayer`: find the first entry with the same `userId`; if the new
data is strictly older by declared date, keep the array and report
`updated: false`; otherwise replace that entry (or append when absent) and
report `updated: true`. -/
def upsertPlayer (players : List Player) (newPlayerData : Player) : UpsertResult :=
  match players.findIdx? (fun p => p.userId == newPlayerData.userId) with
  | some existingIndex =>
    if jsDateLt newPlayerData.lastUpdated
        ((players.getD existingIndex default).lastUpdated) then
      ⟨players, false⟩
    else
      ⟨players.set existingIndex newPlayerData, true⟩
  | none => ⟨players ++ [newPlayerData], true⟩

/-- JS `!==` on numbers: true whenever either side is NaN. -/
def jsStrictNe (a b : JsNum) : Bool :=
  match a, b with
  | some x, some y => x != y
  | _, _ => true

/-- JS subtraction: NaN-absorbing. -/
def jsSub (a b : JsNum) : JsNum :=
  match a, b with
  | some x, some y => some (x - y)
  | _, _ => none

/-- ECMAScript SortCompare turns a NaN comparator result into `+0`. -/
def sortKey (x : JsNum) : Int := x.getD 0

/-- The comparator of `sortPlayers`: descending current score, then descending
peak score, then most recent `lastUpdated` (date difference; invalid dates
produce NaN, handled as 0 by SortCompare). -/
def playerCmp (a b : Player) : Int :=
  if jsStrictNe b.currentRankScore a.currentRankScore then
    sortKey (jsSub b.currentRankScore a.currentRankScore)
  else if jsStrictNe b.peakRankScore a.peakRankScore then
    sortKey (jsSub b.peakRankScore a.peakRankScore)
  else
    match parseISODate a.lastUpdated, parseISODate b.lastUpdated with
    | some x, some y => (y : Int) - (x : Int)
    | _, _ => 0

/-- `sortPlayers`: JS `Array.prototype.sort` is a stable sort ordered by the
comparator; it is modeled as insertion sort (stable) with the relation
`playerCmp a b ≤ 0`. -/
def sortPlayers (players : List Player) : List Player :=
  players.insertionSort (fun a b => playerCmp a b ≤ 0)

/-- `x < 0` on a JS number; false for NaN. -/
def jsNumLtZero (x : JsNum) : Bool :=
  match x with
  | some i => i < 0
  | none => false

/-- `validatePlayerData`: the required-field presence checks are vacuous here
(every construction site populates all fields, and `username` is not in the
required list); scores must not be negative (NaN passes, since `NaN < 0` is
false), and `lastUpdated` must match `/^\d{4}-\d{2}-\d{2}$/`. -/
def validatePlayerData (p : Player) : Bool :=
  if jsNumLtZero p.currentRankScore || jsNumLtZero p.peakRankScore then false
  else strictDateFormat p.lastUpdated

/-! ## Parser module (`parser.js`) -/

/-- The literal `LB_UPDATE:` that opens every update command. -/
def lbUpdateMarker : Str := "LB_UPDATE:".data

/-- Attempt of the regex `/<@!?(\d+)>/` at the current position. -/
def mentionAt (s : Str) : Option Str :=
  match s with
  | '<' :: '@' :: rest =>
    let r := match rest with
             | '!' :: t => t
             | t => t
    let ds := r.takeWhile Char.isDigit
    if ds.isEmpty then none
    else
      match r.drop ds.length with
      | '>' :: _ => some ds
      | _ => none
  | _ => none

/-- Scan for the first match of the mention pattern. -/
def extractUserIdGo : Str → Option Str
  | [] => none
  | c :: rest =>
    match mentionAt (c :: rest) with
    | some ds => some ds
    | none => extractUserIdGo rest

/-- `extractUserId`: digit group of the first `<@123>` / `<@!123>` mention. -/
def extractUserId (mention : Str) : Option Str := extractUserIdGo mention

/-- `parseDate`: strict `YYYY-MM-DD` pattern plus calendar validity via
`new Date`, then the canonical ISO day — which is the input itself for every
accepted input, since the pattern is already zero-padded ISO. -/
def parseDate (dateString : Str) : Option Str :=
  match parseISODate dateString with
  | some _ => some dateString
  | none => none

/-- The character class `[<>'"`;()]` removed by the sanitizer. -/
def dangerousChars : List Char :=
  ['<', '>', '\x27', '"', '\x60', ';', '(', ')']

/-- UTF-16 length contribution of one code point (JS string length and
`substring` count UTF-16 units). -/
def charUnits (c : Char) : Nat := if c.toNat < 0x10000 then 1 else 2

/-- JS `s.length`. -/
def jsLength (s : Str) : Nat := (s.map charUnits).sum

/-- Prefix of at most `n` UTF-16 units (model of `substring(0, n)`; a cut in
the middle of a surrogate pair has no code-point representation and drops
that final character instead, which no property below depends on). -/
def takeUnits : Nat → Str → Str
  | _, [] => []
  | n, c :: rest =>
    if charUnits c ≤ n then c :: takeUnits (n - charUnits c) rest else []

/-- `sanitizeInput`: remove the dangerous characters, trim, truncate to 200
units (for non-string input the JS function returns `''`; only strings are
modeled). -/
def sanitizeInput (text : Str) : Str :=
  takeUnits 200 (jsTrim (text.filter (fun c => !(dangerousChars.contains c))))

/-- `isLeaderboardUpdate`: non-empty string content whose trimmed form starts
with the `LB_UPDATE:` literal. -/
def isLeaderboardUpdate (content : Str) : Bool :=
  !content.isEmpty && List.isPrefixOf lbUpdateMarker (jsTrim content)

mutual

/-- `split(/\s+/)` while inside a token (mutual with the separator state). -/
def splitWsTok : Str → Str → List Str
  | [], cur => [cur.reverse]
  | c :: rest, cur =>
    if isWs c then cur.reverse :: splitWsSkip rest
    else splitWsTok rest (c :: cur)

/-- `split(/\s+/)` while inside a whitespace run. -/
def splitWsSkip : Str → List Str
  | [] => [[]]
  | c :: rest =>
    if isWs c then splitWsSkip rest
    else splitWsTok rest [c]

end

/-- Model of `content.split(/\s+/)`: tokens between whitespace runs, with an
empty leading/trailing token when the string starts/ends with whitespace, and
`[""]` for the empty string — exactly the JS behavior. -/
def jsSplitWs (s : Str) : List Str := splitWsTok s []

/-- The record returned by `parseLeaderboardUpdate` (scores are plain
integers here: NaN values have been rejected before construction). -/
structure ParsedUpdate where
  userId : Str
  currentRank : Str
  currentRankScore : Int
  peakRank : Str
  peakRankScore : Int
  lastUpdated : Str
  rawMention : Str
  deriving DecidableEq, Repr

/-- `parseLeaderboardUpdate`, with each rejection path returning `none`. -/
def parseLeaderboardUpdate (messageContent : Str) : Option ParsedUpdate :=
  if messageContent.isEmpty then none
  else if !(List.isPrefixOf lbUpdateMarker (jsTrim messageContent)) then none
  else
    let content := jsTrim ((jsTrim messageContent).drop lbUpdateMarker.length)
    match jsSplitWs content with
    | mention :: currentRank :: currentRankScore :: peakRank :: peakRankScore ::
        lastUpdated :: _ =>
      match extractUserId mention with
      | none => none
      | some userId =>
        match jsParseInt currentRankScore, jsParseInt peakRankScore with
        | some currentScore, some peakScore =>
          if currentScore < 0 ∨ peakScore < 0 then none
          else
            match parseDate lastUpdated with
            | none => none
            | some parsedDate =>
              let sc := sanitizeInput currentRank
              let sp := sanitizeInput peakRank
              if sc.isEmpty ∨ sp.isEmpty then none
              else some ⟨userId, sc, currentScore, sp, peakScore, parsedDate, mention⟩
        | _, _ => none
    | _ => none

/-- A source message: identifier and content (the `createdTimestamp` and
`author` passthrough fields are opaque to the core and not modeled). -/
structure Message where
  id : Str
  content : Str
  deriving DecidableEq, Repr

/-- One entry of the `successful` bucket. -/
structure SuccessfulParse where
  messageId : Str
  data : ParsedUpdate
  deriving DecidableEq, Repr

/-- One entry of the `failed` bucket (reason is always `'parse_error'`). -/
structure FailedParse where
  messageId : Str
  content : Str
  deriving DecidableEq, Repr

/-- The three buckets of `parseMultipleUpdates`. -/
structure ParseResults where
  successful : List SuccessfulParse
  failed : List FailedParse
  skipped : Nat
  deriving DecidableEq, Repr

/-- The loop of `parseMultipleUpdates`. -/
def parseMultipleGo (results : ParseResults) : List Message → ParseResults
  | [] => results
  | message :: rest =>
    if !isLeaderboardUpdate message.content then
      parseMultipleGo { results with skipped := results.skipped + 1 } rest
    else
      match parseLeaderboardUpdate message.content with
      | some parsed =>
        parseMultipleGo
          { results with successful := results.successful ++ [⟨message.id, parsed⟩] } rest
      | none =>
        parseMultipleGo
          { results with failed := results.failed ++ [⟨message.id, message.content⟩] } rest

/-- `parseMultipleUpdates`. -/
def parseMultipleUpdates (messages : List Message) : ParseResults :=
  parseMultipleGo ⟨[], [], 0⟩ messages

/-! ## Parser theorems -/

theorem parseMultipleGo_counts (messages : List Message) :
    ∀ (rs : List SuccessfulParse) (rf : List FailedParse) (rk : Nat),
      (parseMultipleGo ⟨rs, rf, rk⟩ messages).successful.length +
          (parseMultipleGo ⟨rs, rf, rk⟩ messages).failed.length +
          (parseMultipleGo ⟨rs, rf, rk⟩ messages).skipped =
        rs.length + rf.length + rk + messages.length ∧
      (parseMultipleGo ⟨rs, rf, rk⟩ messages).skipped =
        rk + (messages.filter (fun m => !isLeaderboardUpdate m.content)).length := by
  induction messages with
  | nil => intro rs rf rk; simp [parseMultipleGo]
  | cons message rest ih =>
    intro rs rf rk
    by_cases h : isLeaderboardUpdate message.content
    · simp only [parseMultipleGo, h, Bool.not_true, Bool.false_eq_true, if_false]
      rw [List.filter_cons_of_neg (by simp [h])]
      cases hp : parseLeaderboardUpdate message.content with
      | some parsed =>
        have hih := ih (rs ++ [⟨message.id, parsed⟩]) rf rk
        simp only [List.length_append, List.length_singleton, List.length_cons,
          List.length_nil] at hih ⊢
        omega
      | none =>
        have hih := ih rs (rf ++ [⟨message.id, message.content⟩]) rk
        simp only [List.length_append, List.length_singleton, List.length_cons,
          List.length_nil] at hih ⊢
        omega
    · have h' : isLeaderboardUpdate message.content = false := by
        simpa using h
      simp only [parseMultipleGo, h', Bool.not_false, if_true]
      rw [List.filter_cons_of_pos (by simp [h'])]
      have hih := ih rs rf (rk + 1)
      simp only [List.length_cons] at hih ⊢
      omega

/-- C10: every message lands in exactly one bucket, so
successful + failed + skipped equals the number of input messages; the
skipped count is exactly the number of messages whose content does not begin
(after trimming) with the literal `LB_UPDATE:`, and the skip test
`isLeaderboardUpdate` holds if and only if the trimmed content starts with
that literal. -/
theorem parseMultipleUpdates_partition (messages : List Message) :
    ((parseMultipleUpdates messages).successful.length +
        (parseMultipleUpdates messages).failed.length +
        (parseMultipleUpdates messages).skipped = messages.length ∧
      (parseMultipleUpdates messages).skipped =
        (messages.filter
          (fun m => !(List.isPrefixOf lbUpdateMarker (jsTrim m.content)))).length) ∧
    ∀ s : Str,
      isLeaderboardUpdate s = true ↔ List.isPrefixOf lbUpdateMarker (jsTrim s) = true := by
  have hequiv : ∀ s : Str,
      isLeaderboardUpdate s = true ↔
        List.isPrefixOf lbUpdateMarker (jsTrim s) = true := by
    intro s
    cases s with
    | nil => simp [isLeaderboardUpdate, jsTrim, jsTrimLeft, dropTrailingWs, lbUpdateMarker]
    | cons c rest => simp [isLeaderboardUpdate]
  obtain ⟨h1, h2⟩ := parseMultipleGo_counts messages [] [] 0
  refine ⟨⟨by simpa using h1, ?_⟩, hequiv⟩
  rw [show (parseMultipleUpdates messages).skipped =
        (messages.filter (fun m => !isLeaderboardUpdate m.content)).length by
      simpa using h2]
  apply congrArg List.length
  apply List.filter_congr
  intro m _
  have hm := hequiv m.content
  cases hh : isLeaderboardUpdate m.content with
  | true =>
    rw [hm.mp hh]
  | false =>
    have hb : List.isPrefixOf lbUpdateMarker (jsTrim m.content) = false := by
      cases hx : List.isPrefixOf lbUpdateMarker (jsTrim m.content)
      · rfl
      · rw [hm.mpr hx] at hh
        cases hh
    rw [hb]

/-! ## Sanitizer theorems (C6) -/

theorem mem_takeUnits {c : Char} : ∀ {n : Nat} {s : Str}, c ∈ takeUnits n s → c ∈ s := by
  intro n s
  induction s generalizing n with
  | nil => simp [takeUnits]
  | cons d rest ih =>
    intro h
    unfold takeUnits at h
    by_cases hu : charUnits d ≤ n
    · rw [if_pos hu] at h
      rcases List.mem_cons.mp h with h | h
      · exact h ▸ List.mem_cons_self d rest
      · exact List.mem_cons_of_mem d (ih h)
    · rw [if_neg hu] at h
      cases h

theorem mem_jsTrim {c : Char} {s : Str} (h : c ∈ jsTrim s) : c ∈ s := by
  unfold jsTrim dropTrailingWs jsTrimLeft at h
  rw [List.mem_reverse] at h
  have h1 : c ∈ (s.dropWhile isWs).reverse :=
    List.Sublist.mem h (List.dropWhile_sublist isWs)
  rw [List.mem_reverse] at h1
  exact List.Sublist.mem h1 (List.dropWhile_sublist isWs)

/-- C6 (amended): every character of `sanitizeInput`'s output is a character
of the input outside the removed class `< > ' " backquote ; ( )` — the pipe
delimiter `|` is not in that class, so sanitized tier labels can still
contain the `|` used by the state codec. -/
theorem sanitizeInput_chars (s : Str) (c : Char) (hc : c ∈ sanitizeInput s) :
    c ∈ s ∧ c ∉ dangerousChars := by
  unfold sanitizeInput at hc
  have h1 := mem_jsTrim (mem_takeUnits hc)
  have h2 := List.mem_filter.mp h1
  refine ⟨h2.1, fun hmem => ?_⟩
  have h3 := h2.2
  simp only [List.contains, List.elem_eq_mem, Bool.not_eq_true', decide_eq_false_iff_not] at h3
  exact h3 hmem

/-- Witness for C6's amended theorem at a concrete input. -/
theorem sanitizeInput_chars_witness :
    'D' ∈ "Dia".data ∧ 'D' ∉ dangerousChars :=
  sanitizeInput_chars "Dia".data 'D' (by decide)

/-- C6 counterexample: the sanitizer does not strip the pipe delimiter — the
tier label `Dia|mond` passes through with its `|` intact, so an encoded
entity field can contain the delimiter. -/
theorem sanitizeInput_keeps_pipe :
    '|' ∈ sanitizeInput "Dia|mond".data ∧
    sanitizeInput "Dia|mond".data = "Dia|mond".data := by
  decide

/-! ## Renderer module (`renderer.js`) -/

/-- `formatDate`: `new Date(s).toISOString().split('T')[0]` — the identity on
calendar-valid strict ISO dates; for an Invalid Date, `toISOString` throws a
RangeError, modeled by `none`. -/
def formatDate (dateString : Str) : Option Str :=
  match parseISODate dateString with
  | some _ => some dateString
  | none => none

/-- The rank-emoji table. -/
def rankEmojis : List (Str × Str) :=
  [("iron".data, "⚫".data), ("bronze".data, "🟤".data), ("silver".data, "⚪".data),
   ("gold".data, "🟡".data), ("platinum".data, "🔵".data), ("diamond".data, "💎".data),
   ("master".data, "👑".data), ("grandmaster".data, "🔥".data),
   ("challenger".data, "⭐".data), ("radiant".data, "✨".data),
   ("immortal".data, "🌟".data), ("legend".data, "🏆".data)]

/-- `getRankEmoji`: lowercase lookup with the `🔹` fallback (lower-casing is
modeled by `Char.toLower`, which covers the ASCII rank names used here). -/
def getRankEmoji (rankName : Str) : Str :=
  match List.lookup (rankName.map Char.toLower) rankEmojis with
  | some e => e
  | none => "🔹".data

/-- The position medals `['🥇','🥈','🥉'][position - 1]` for positions 1–3. -/
def medal (position : Nat) : Str :=
  if position = 1 then "🥇".data
  else if position = 2 then "🥈".data
  else "🥉".data

/-- Reversed-digit grouping in threes for `toLocaleString`. -/
def chunk3 : Str → List Str
  | [] => []
  | [a] => [[a]]
  | [a, b] => [[a, b]]
  | [a, b, c] => [[a, b, c]]
  | a :: b :: c :: rest => [a, b, c] :: chunk3 rest

/-- `toLocaleString()` on the integer-valued numbers of this program: decimal
digits grouped in threes with commas (the en-US default); NaN prints `NaN`. -/
def numToLocale (x : JsNum) : Str :=
  match x with
  | none => "NaN".data
  | some i =>
    let groups := (chunk3 ((natDecStr i.natAbs).reverse)).map List.reverse
    let s := List.intercalate [','] groups.reverse
    if i < 0 then '-' :: s else s

/-- `renderPlayerEntry`: the four display lines of one entity, `\n`-joined;
`none` models the `formatDate` exception on an invalid stored date. -/
def renderPlayerEntry (position : Nat) (p : Player) (showEmojis : Bool) : Option Str :=
  match formatDate p.lastUpdated with
  | none => none
  | some fd =>
    let positionDisplay :=
      if position ≤ 3 then medal position else natDecStr position ++ ".".data
    let currentRankEmoji := if showEmojis then getRankEmoji p.currentRank else []
    let peakRankEmoji := if showEmojis then getRankEmoji p.peakRank else []
    some (List.intercalate ['\n']
      [positionDisplay ++ " <@".data ++ p.userId ++ ">".data,
       "   Current: ".data ++ currentRankEmoji ++ " ".data ++ p.currentRank ++
         " — ".data ++ numToLocale p.currentRankScore,
       "   Peak: ".data ++ peakRankEmoji ++ " ".data ++ p.peakRank ++
         " — ".data ++ numToLocale p.peakRankScore,
       "   Last Update: ".data ++ fd])

/-- The `forEach` over the shown players: each entity contributes its entry
and a blank spacing line. -/
def renderEntries (showEmojis : Bool) : Nat → List Player → Option (List Str)
  | _, [] => some []
  | position, p :: rest => do
    let e ← renderPlayerEntry position p showEmojis
    let es ← renderEntries showEmojis (position + 1) rest
    some (e :: [] :: es)

/-- `renderLeaderboard` (the wall-clock read `getCurrentTimestamp()` is
passed in as `nowStr`; `maxPlayers`/`showEmojis` are the `options` fields
with defaults 50/true at each call site). -/
def renderLeaderboard (gameName : Str) (players : List Player) (lastId : Option Str)
    (maxPlayers : Nat) (showEmojis : Bool) (nowStr : Str) : Option Str := do
  let base := ["🏆 ".data ++ gameName.map Char.toUpper ++ " LEADERBOARD".data,
    ([] : Str)]
  let withBody ←
    if players.isEmpty then
      some (base ++ ["No leaderboard data available.".data, ([] : Str),
        "💡 Use `LB_UPDATE: @user <rank> <score> <peak_rank> <peak_score> <date>` to add entries.".data])
    else do
      let entries ← renderEntries showEmojis 1 (players.take maxPlayers)
      let out := base ++ entries
      some (if out.getLast? = some ([] : Str) then out.dropLast else out)
  let footer :=
    ["━━━━━━━━━━━━━━━━━━".data] ++
    (if players.isEmpty then []
     else ["📊 Total Players: ".data ++ natDecStr players.length] ++
       (if maxPlayers < players.length then
          ["(Showing top ".data ++ natDecStr maxPlayers ++ ")".data]
        else [])) ++
    ["Updated: ".data ++ nowStr, ([] : Str)]
  some (List.intercalate ['\n'] (withBody ++ footer ++ [encodeState lastId players]))

/-- `validateMessageLength`: at most 2000 UTF-16 units. -/
def validateMessageLength (content : Str) : Bool :=
  if 2000 < jsLength content then false else true

/-- Result of `truncateIfNeeded`; the untruncated return carries no
`shownCount` field (`none`). -/
structure TruncateResult where
  content : Str
  truncated : Bool
  shownCount : Option Nat
  deriving DecidableEq, Repr, Inhabited

/-- The `while (playerCount > 0)` halving loop of `truncateIfNeeded`, with
explicit fuel; the count strictly halves each iteration, so any fuel above
the iteration count (`initial count + 2` suffices, see
`truncLoop_fuel_stable`) gives the loop's exact semantics.  Inner `some
(r, k)` is the first fitting render; inner `none` means the count reached
zero. -/
def truncLoop (gameName : Str) (players : List Player) (lastId : Option Str)
    (nowStr : Str) (maxLength : Nat) : Nat → Nat → Option (Option (Str × Nat))
  | 0, _ => some none
  | fuel + 1, playerCount =>
    if playerCount = 0 then some none
    else do
      let rendered ← renderLeaderboard gameName (players.take playerCount) lastId
        playerCount true nowStr
      if jsLength rendered ≤ maxLength then some (some (rendered, playerCount))
      else truncLoop gameName players lastId nowStr maxLength fuel (playerCount / 2)

/-- `truncateIfNeeded` (`maxLength` defaults to 1900 at the call site). -/
def truncateIfNeeded (gameName : Str) (players : List Player) (lastId : Option Str)
    (nowStr : Str) (maxLength : Nat) : Option TruncateResult := do
  let rendered ← renderLeaderboard gameName players lastId 50 true nowStr
  if jsLength rendered ≤ maxLength then
    some ⟨rendered, false, none⟩
  else
    match ← truncLoop gameName players lastId nowStr maxLength
        (players.length + 2) (players.length / 2) with
    | some (r, k) => some ⟨r, true, some k⟩
    | none => do
      let fallback ← renderLeaderboard gameName (players.take 3) lastId 50 true nowStr
      some ⟨fallback, true, some 3⟩

/-! ## Basic lemmas about the merge engine -/

theorem jsDateLt_self (s : Str) : jsDateLt s s = false := by
  unfold jsDateLt
  cases parseISODate s <;> simp

theorem upsert_of_findIdx_none {ps : List Player} {u : Player}
    (h : ps.findIdx? (fun p => p.userId == u.userId) = none) :
    upsertPlayer ps u = ⟨ps ++ [u], true⟩ := by
  unfold upsertPlayer
  rw [h]

theorem upsert_of_findIdx_some {ps : List Player} {u : Player} {j : Nat} {e : Player}
    (h : ps.findIdx? (fun p => p.userId == u.userId) = some j)
    (he : ps[j]? = some e) :
    upsertPlayer ps u =
      if jsDateLt u.lastUpdated e.lastUpdated then ⟨ps, false⟩
      else ⟨ps.set j u, true⟩ := by
  unfold upsertPlayer
  rw [h]
  simp [List.getD_eq_getElem?_getD, he]

/-- C2: if an entity with the update's id exists, the update's `lastUpdated`
is compared to the existing one as calendar dates; a strictly older update is
discarded (collection unchanged, outcome stale/`false`), while an equal or
newer one wholly replaces the existing entity (outcome `true`). -/
theorem upsert_stale_rejection
    (ps : List Player) (u : Player) (j : Nat) (e : Player) (du de : Nat)
    (hfind : ps.findIdx? (fun p => p.userId == u.userId) = some j)
    (he : ps[j]? = some e)
    (hdu : parseISODate u.lastUpdated = some du)
    (hde : parseISODate e.lastUpdated = some de) :
    (du < de → upsertPlayer ps u = ⟨ps, false⟩) ∧
    (de ≤ du → upsertPlayer ps u = ⟨ps.set j u, true⟩) := by
  have hlt : jsDateLt u.lastUpdated e.lastUpdated = decide (du < de) := by
    unfold jsDateLt
    rw [hdu, hde]
  rw [upsert_of_findIdx_some hfind he, hlt]
  constructor
  · intro hc
    simp [hc]
  · intro hc
    have : ¬(du < de) := by omega
    simp [this]

/-- Sample existing entity for the C2 witness. -/
def c2e : Player :=
  ⟨"1".data, "A".data, "D".data, some 5, "M".data, some 6, "2026-02-14".data⟩

/-- A strictly older update for the same id. -/
def c2stale : Player :=
  ⟨"1".data, "A".data, "D".data, some 7, "M".data, some 8, "2026-02-10".data⟩

/-- An equal-date update for the same id. -/
def c2fresh : Player :=
  ⟨"1".data, "A".data, "D".data, some 7, "M".data, some 8, "2026-02-14".data⟩

/-- Witness for C2 at concrete inputs: the 2026-02-10 update against a
2026-02-14 entity is rejected as stale; the equal-date update replaces it. -/
theorem upsert_stale_rejection_witness :
    upsertPlayer [c2e] c2stale = ⟨[c2e], false⟩ ∧
    upsertPlayer [c2e] c2fresh = ⟨[c2fresh], true⟩ := by
  constructor
  · exact (upsert_stale_rejection [c2e] c2stale 0 c2e 20260210 20260214
      (by decide) (by decide) (by decide) (by decide)).1 (by decide)
  · exact (upsert_stale_rejection [c2e] c2fresh 0 c2e 20260214 20260214
      (by decide) (by decide) (by decide) (by decide)).2 (by decide)

/-- C3 (amended): applying the same update twice in direct succession yields
the same entity state as applying it once, and the second outcome equals the
first — in particular an applied update re-applied reports `updated` again
(an equal date is not strictly older), not stale. -/
theorem upsert_twice_eq_once (ps : List Player) (u : Player) :
    (upsertPlayer (upsertPlayer ps u).players u).players = (upsertPlayer ps u).players ∧
    (upsertPlayer (upsertPlayer ps u).players u).updated = (upsertPlayer ps u).updated := by
  cases h : ps.findIdx? (fun p => p.userId == u.userId) with
  | none =>
    rw [upsert_of_findIdx_none h]
    have hfind2 : (ps ++ [u]).findIdx? (fun p => p.userId == u.userId) =
        some ps.length := by
      rw [List.findIdx?_append, h]
      simp [List.findIdx?_cons]
    have hget : (ps ++ [u])[ps.length]? = some u := by
      rw [List.getElem?_append_right (Nat.le_refl _)]
      simp
    rw [upsert_of_findIdx_some hfind2 hget, jsDateLt_self]
    simp
  | some j =>
    obtain ⟨hj, hpj, hprev⟩ := List.findIdx?_eq_some_iff_getElem.mp h
    have he : ps[j]? = some ps[j] := List.getElem?_eq_getElem hj
    rw [upsert_of_findIdx_some h he]
    by_cases hd : jsDateLt u.lastUpdated ps[j].lastUpdated
    · rw [if_pos hd, upsert_of_findIdx_some h he, if_pos hd]
      exact ⟨rfl, rfl⟩
    · rw [if_neg hd]
      have hlen : j < (ps.set j u).length := by simpa using hj
      have hfind2 : (ps.set j u).findIdx? (fun p => p.userId == u.userId) = some j := by
        rw [List.findIdx?_eq_some_iff_getElem]
        refine ⟨hlen, by simp, fun i hij => ?_⟩
        have hne : i ≠ j := Nat.ne_of_lt hij
        rw [List.getElem_set_ne (fun hh => hne hh.symm)]
        exact hprev i hij
      have hget2 : (ps.set j u)[j]? = some u := by
        rw [List.getElem?_eq_getElem hlen]
        simp
      rw [upsert_of_findIdx_some hfind2 hget2, jsDateLt_self]
      simp [List.set_set]

/-! ## Digit-string lemmas -/

theorem digitVal_digitChar {d : Nat} (h : d < 10) : digitVal (digitChar d) = d := by
  interval_cases d <;> rfl

theorem isDigit_digitChar {d : Nat} : (digitChar d).isDigit = true := by
  unfold digitChar
  split <;> rfl

theorem natDigitsRevAux_digits :
    ∀ (fuel n : Nat), ∀ c ∈ natDigitsRevAux fuel n, c.isDigit = true := by
  intro fuel
  induction fuel with
  | zero => intro n c hc; cases hc
  | succ f ih =>
    intro n c hc
    unfold natDigitsRevAux at hc
    by_cases h : n = 0
    · rw [if_pos h] at hc; cases hc
    · rw [if_neg h] at hc
      rcases List.mem_cons.mp hc with rfl | hc
      · exact isDigit_digitChar
      · exact ih _ c hc

theorem digitsVal_append_single (xs : Str) (c : Char) :
    digitsVal (xs ++ [c]) = 10 * digitsVal xs + digitVal c := by
  unfold digitsVal
  rw [List.foldl_append]
  rfl

theorem digitsVal_natDigitsRevAux :
    ∀ (fuel n : Nat), n ≤ fuel → digitsVal (natDigitsRevAux fuel n).reverse = n := by
  intro fuel
  induction fuel with
  | zero => intro n h; interval_cases n; rfl
  | succ f ih =>
    intro n h
    unfold natDigitsRevAux
    by_cases h0 : n = 0
    · rw [if_pos h0, h0]; rfl
    · rw [if_neg h0, List.reverse_cons, digitsVal_append_single,
        ih (n / 10) (by omega), digitVal_digitChar (Nat.mod_lt n (by omega))]
      omega

theorem natDecStr_digits (n : Nat) : ∀ c ∈ natDecStr n, c.isDigit = true := by
  intro c hc
  unfold natDecStr at hc
  by_cases h : n = 0
  · rw [if_pos h] at hc
    rw [List.mem_singleton.mp hc]
    rfl
  · rw [if_neg h] at hc
    exact natDigitsRevAux_digits n n c (List.mem_reverse.mp hc)

theorem natDecStr_ne_nil (n : Nat) : natDecStr n ≠ [] := by
  unfold natDecStr
  by_cases h : n = 0
  · rw [if_pos h]; simp
  · rw [if_neg h]
    simp only [ne_eq, List.reverse_eq_nil_iff]
    cases n with
    | zero => exact absurd rfl h
    | succ m => simp [natDigitsRevAux]

theorem digitsVal_natDecStr (n : Nat) : digitsVal (natDecStr n) = n := by
  unfold natDecStr
  by_cases h : n = 0
  · rw [if_pos h, h]; rfl
  · rw [if_neg h]
    exact digitsVal_natDigitsRevAux n n (Nat.le_refl n)

theorem char_ne_of_isDigit {c : Char} (h : c.isDigit = true) {d : Char}
    (hd : d.isDigit = false) : c ≠ d := by
  intro he
  rw [he, hd] at h
  exact Bool.noConfusion h

theorem isWs_eq_false_of_isDigit {c : Char} (h : c.isDigit = true) : isWs c = false := by
  have h1 : c ≠ ' ' := char_ne_of_isDigit h (by decide)
  have h2 : c ≠ '\t' := char_ne_of_isDigit h (by decide)
  have h3 : c ≠ '\n' := char_ne_of_isDigit h (by decide)
  have h4 : c ≠ '\r' := char_ne_of_isDigit h (by decide)
  simp [isWs, h1, h2, h3, h4]

theorem takeWhile_all {p : Char → Bool} :
    ∀ {s : Str}, (∀ c ∈ s, p c = true) → s.takeWhile p = s := by
  intro s
  induction s with
  | nil => intro _; rfl
  | cons c t ih =>
    intro h
    rw [List.takeWhile_cons_of_pos (h c (List.mem_cons_self c t))]
    rw [ih (fun d hd => h d (List.mem_cons_of_mem c hd))]

theorem jsParseInt_natDecStr (n : Nat) : jsParseInt (natDecStr n) = some (n : Int) := by
  have hd := natDecStr_digits n
  have hne := natDecStr_ne_nil n
  obtain ⟨c, t, hct⟩ : ∃ c t, natDecStr n = c :: t := by
    cases hs : natDecStr n
    · exact absurd hs hne
    · exact ⟨_, _, rfl⟩
  have hcd : c.isDigit = true := hd c (by rw [hct]; exact List.mem_cons_self _ _)
  have hval : digitsVal (c :: t) = n := by rw [← hct]; exact digitsVal_natDecStr n
  have hall : ∀ d ∈ c :: t, d.isDigit = true := by rw [← hct]; exact hd
  unfold jsParseInt
  rw [hct, List.dropWhile_cons, isWs_eq_false_of_isDigit hcd]
  simp only [Bool.false_eq_true, if_false]
  have hparse : parseDigits (c :: t) = some n := by
    unfold parseDigits
    rw [takeWhile_all hall]
    simp [hval]
  split
  · next r heq =>
    exfalso
    have : c = '-' := by injection heq
    exact char_ne_of_isDigit hcd (by decide) this
  · next r heq =>
    exfalso
    have : c = '+' := by injection heq
    exact char_ne_of_isDigit hcd (by decide) this
  · next heq1 heq2 =>
    rw [hparse]
    rfl

/-! ## Trim, join and search lemmas -/

theorem dropTrailingWs_eq_self {s : Str} (h : ∀ c ∈ s, isWs c = false) :
    dropTrailingWs s = s := by
  unfold dropTrailingWs
  have hrev : s.reverse.dropWhile isWs = s.reverse := by
    cases hr : s.reverse with
    | nil => rfl
    | cons c t =>
      rw [List.dropWhile_cons_of_neg]
      have : c ∈ s := by
        rw [← List.mem_reverse, hr]
        exact List.mem_cons_self c t
      simp [h c this]
  rw [hrev, List.reverse_reverse]

theorem dropTrailingWs_append {xs ys : Str} (h : dropTrailingWs ys ≠ []) :
    dropTrailingWs (xs ++ ys) = xs ++ dropTrailingWs ys := by
  unfold dropTrailingWs at h ⊢
  have hne : (ys.reverse.dropWhile isWs).isEmpty = false := by
    cases hd : ys.reverse.dropWhile isWs with
    | nil => rw [hd] at h; simp at h
    | cons c t => rfl
  rw [List.reverse_append, List.dropWhile_append, hne]
  simp only [Bool.false_eq_true, if_false]
  rw [List.reverse_append, List.reverse_reverse]

theorem dropTrailingWs_append_nl (xs : Str) :
    dropTrailingWs (xs ++ ['\n']) = dropTrailingWs xs := by
  unfold dropTrailingWs
  rw [List.reverse_append]
  rfl

theorem jsTrim_cons_nl (s : Str) : jsTrim ('\n' :: s) = jsTrim s := by
  unfold jsTrim jsTrimLeft
  rw [List.dropWhile_cons_of_pos (by rfl)]

theorem jsTrim_append_nl (s : Str) : jsTrim (s ++ ['\n']) = jsTrim s := by
  unfold jsTrim jsTrimLeft
  rw [List.dropWhile_append]
  by_cases h : (s.dropWhile isWs).isEmpty
  · rw [if_pos h]
    rw [List.isEmpty_iff.mp h]
    rfl
  · rw [if_neg h]
    exact dropTrailingWs_append_nl _

theorem jsTrim_eq_self {s : Str} (hhead : ∀ c, s.head? = some c → isWs c = false)
    (htail : dropTrailingWs s = s) : jsTrim s = s := by
  unfold jsTrim jsTrimLeft
  cases s with
  | nil => rfl
  | cons c t =>
    rw [List.dropWhile_cons_of_neg (by simp [hhead c rfl])]
    exact htail

theorem jsTrim_ne_nil {c : Char} {t : Str} (hc : isWs c = false) :
    jsTrim (c :: t) ≠ [] := by
  unfold jsTrim jsTrimLeft dropTrailingWs
  rw [List.dropWhile_cons_of_neg (by simp [hc])]
  intro h
  rw [List.reverse_eq_nil_iff, List.dropWhile_eq_nil_iff] at h
  have := h c (by simp)
  rw [hc] at this
  exact Bool.noConfusion this

theorem intercalate_cons_cons {sep x y : Str} (t : List Str) :
    List.intercalate sep (x :: y :: t) = x ++ sep ++ List.intercalate sep (y :: t) := by
  unfold List.intercalate
  rw [List.intersperse_cons_cons]
  simp [List.append_assoc]

theorem intercalate_singleton {sep x : Str} : List.intercalate sep [x] = x := by
  simp [List.intercalate, List.intersperse]

theorem intercalate_nil {sep : Str} : List.intercalate sep [] = [] := rfl

theorem mem_intercalate {c : Char} {sep : Str} :
    ∀ {xss : List Str}, c ∈ List.intercalate sep xss →
      c ∈ sep ∨ ∃ xs ∈ xss, c ∈ xs := by
  intro xss
  induction xss with
  | nil => intro h; simp [List.intercalate, List.intersperse] at h
  | cons x xs ih =>
    cases xs with
    | nil =>
      intro h
      rw [intercalate_singleton] at h
      exact Or.inr ⟨x, List.mem_singleton.mpr rfl, h⟩
    | cons y t =>
      intro h
      rw [intercalate_cons_cons] at h
      rcases List.mem_append.mp h with h | h
      · rcases List.mem_append.mp h with h | h
        · exact Or.inr ⟨x, List.mem_cons_self _ _, h⟩
        · exact Or.inl h
      · rcases ih h with h | ⟨xs, hxs, hc⟩
        · exact Or.inl h
        · exact Or.inr ⟨xs, List.mem_cons_of_mem _ hxs, hc⟩

theorem firstSublistIdx_of_isPrefixOf {s pat : Str}
    (h : List.isPrefixOf pat s = true) : firstSublistIdx s pat = some 0 := by
  cases s with
  | nil =>
    cases pat with
    | nil => rfl
    | cons p pt => exact Bool.noConfusion h
  | cons c t =>
    unfold firstSublistIdx
    rw [if_pos h]

theorem firstSublistIdx_cons (c : Char) (rest pat : Str) :
    firstSublistIdx (c :: rest) pat =
      if List.isPrefixOf pat (c :: rest) = true then some 0
      else (firstSublistIdx rest pat).map (· + 1) := rfl

theorem firstSublistIdx_append_left {pat : Str} {p0 : Char}
    (hpat : pat.head? = some p0) :
    ∀ (A : Str), (∀ c ∈ A, c ≠ p0) → ∀ t,
      firstSublistIdx (A ++ t) pat = (firstSublistIdx t pat).map (· + A.length) := by
  intro A
  induction A with
  | nil =>
    intro _ t
    rw [List.nil_append]
    cases h : firstSublistIdx t pat <;> simp [h]
  | cons a A ih =>
    intro hA t
    obtain ⟨p, pt, rfl⟩ : ∃ p pt, pat = p :: pt := by
      cases pat with
      | nil => exact Option.noConfusion hpat
      | cons p pt => exact ⟨p, pt, rfl⟩
    have hp0 : p = p0 := by
      simpa using hpat
    have ha : a ≠ p0 := hA a (List.mem_cons_self a A)
    have hne : List.isPrefixOf (p :: pt) (a :: (A ++ t)) = false := by
      simp only [List.isPrefixOf]
      have hb : (p == a) = false := by
        rw [hp0]
        exact beq_eq_false_iff_ne.mpr (fun he => ha he.symm)
      rw [hb]
      rfl
    rw [List.cons_append, firstSublistIdx_cons, if_neg (by simp [hne]),
      ih (fun c hc => hA c (List.mem_cons_of_mem a hc)) t]
    cases firstSublistIdx t (p :: pt) with
    | none => rfl
    | some v => simp [Nat.add_assoc]

theorem firstSublistIdx_self_append (pat t : Str) :
    firstSublistIdx (pat ++ t) pat = some 0 :=
  firstSublistIdx_of_isPrefixOf
    (List.isPrefixOf_iff_prefix.mpr (List.prefix_append pat t))

theorem jsSubstring_extract (A mid B : Str) :
    jsSubstring (A ++ (mid ++ B)) A.length (A.length + mid.length) = mid := by
  unfold jsSubstring
  rw [Nat.max_eq_right (by omega), Nat.min_eq_left (by omega)]
  rw [← List.append_assoc]
  rw [List.take_left' (by simp)]
  exact List.drop_left A mid

/-! ## Round-trip conditions (C1) -/

/-- A free-form field that survives the codec: no pipe delimiter, no
newline, and no `[` (which could spoof the data markers). -/
def cleanField (s : Str) : Prop := ∀ c ∈ s, c ≠ '|' ∧ c ≠ '\n' ∧ c ≠ '['

/-- A non-empty string of decimal digits (entity ids and message-id cursors). -/
def digitStr (s : Str) : Prop := s ≠ [] ∧ ∀ c ∈ s, c.isDigit = true

/-- At most one entity per `id`. -/
def uniqueIds (players : List Player) : Prop :=
  (players.map Player.userId).Nodup

instance decCleanField (s : Str) : Decidable (cleanField s) :=
  inferInstanceAs (Decidable (∀ c ∈ s, c ≠ '|' ∧ c ≠ '\n' ∧ c ≠ '['))

instance decDigitStr (s : Str) : Decidable (digitStr s) :=
  inferInstanceAs (Decidable (s ≠ [] ∧ ∀ c ∈ s, c.isDigit = true))

instance decUniqueIds (ps : List Player) : Decidable (uniqueIds ps) :=
  inferInstanceAs (Decidable ((ps.map Player.userId).Nodup))

/-- The cursor is `null` or a non-empty digit string (a message id). -/
def cursorOk : Option Str → Prop
  | none => True
  | some s => digitStr s

/-- Conditions under which an entity survives the codec round trip: digit
id, non-empty delimiter-free username, delimiter-free tiers, non-negative
integer scores, strict `YYYY-MM-DD` date. -/
def encodable (p : Player) : Prop :=
  digitStr p.userId ∧
  p.username ≠ [] ∧ cleanField p.username ∧
  cleanField p.currentRank ∧ cleanField p.peakRank ∧
  (∃ n : Nat, p.currentRankScore = some (n : Int)) ∧
  (∃ n : Nat, p.peakRankScore = some (n : Int)) ∧
  strictDateFormat p.lastUpdated = true

theorem strictDateFormat_chars {s : Str} (h : strictDateFormat s = true) :
    ∀ c ∈ s, c.isDigit = true ∨ c = '-' := by
  unfold strictDateFormat at h
  split at h
  · next y1 y2 y3 y4 m1 m2 d1 d2 =>
    simp only [Bool.and_eq_true] at h
    intro c hc
    simp only [List.mem_cons, List.not_mem_nil, or_false] at hc
    rcases hc with rfl | rfl | rfl | rfl | rfl | rfl | rfl | rfl | rfl | rfl
    · exact Or.inl h.1.1.1.1.1.1.1
    · exact Or.inl h.1.1.1.1.1.1.2
    · exact Or.inl h.1.1.1.1.1.2
    · exact Or.inl h.1.1.1.1.2
    · exact Or.inr rfl
    · exact Or.inl h.1.1.1.2
    · exact Or.inl h.1.1.2
    · exact Or.inr rfl
    · exact Or.inl h.1.2
    · exact Or.inl h.2
  · exact Bool.noConfusion h

theorem strictDateFormat_ne_nil {s : Str} (h : strictDateFormat s = true) : s ≠ [] := by
  unfold strictDateFormat at h
  split at h
  · next => simp
  · exact Bool.noConfusion h

/-- Characters of a strict date are never whitespace, pipes, newlines or
brackets. -/
theorem strictDateFormat_clean {s : Str} (h : strictDateFormat s = true) :
    ∀ c ∈ s, isWs c = false ∧ c ≠ '|' ∧ c ≠ '\n' ∧ c ≠ '[' := by
  intro c hc
  rcases strictDateFormat_chars h c hc with hd | rfl
  · exact ⟨isWs_eq_false_of_isDigit hd, char_ne_of_isDigit hd (by decide),
      char_ne_of_isDigit hd (by decide), char_ne_of_isDigit hd (by decide)⟩
  · exact ⟨by decide, by decide, by decide, by decide⟩

theorem jsNumToStr_coe (n : Nat) : jsNumToStr (some (n : Int)) = natDecStr n := by
  show (if (n : Int) < 0 then '-' :: natDecStr (n : Int).natAbs
    else natDecStr (n : Int).natAbs) = natDecStr n
  rw [if_neg (by omega)]
  simp

/-- The seven fields of one encoded line, under the round-trip conditions. -/
def playerFields (p : Player) (n1 n2 : Nat) : List Str :=
  [p.userId, p.username, p.currentRank, natDecStr n1, p.peakRank,
   natDecStr n2, p.lastUpdated]

theorem encodePlayerLine_eq_intercalate {p : Player} {n1 n2 : Nat}
    (hu : p.username ≠ []) (h1 : p.currentRankScore = some (n1 : Int))
    (h2 : p.peakRankScore = some (n2 : Int)) :
    encodePlayerLine p = List.intercalate ['|'] (playerFields p n1 n2) := by
  unfold encodePlayerLine playerFields
  rw [h1, h2, jsNumToStr_coe, jsNumToStr_coe]
  rw [if_neg (by simpa using hu)]

theorem playerFields_no_pipe {p : Player} {n1 n2 : Nat} (h : encodable p) :
    ∀ f ∈ playerFields p n1 n2, '|' ∉ f := by
  obtain ⟨⟨_, hid⟩, _, hun, hcr, hpr, _, _, hdate⟩ := h
  intro f hf
  unfold playerFields at hf
  simp only [List.mem_cons, List.not_mem_nil, or_false] at hf
  rcases hf with rfl | rfl | rfl | rfl | rfl | rfl | rfl
  · intro hc; exact char_ne_of_isDigit (hid _ hc) (by decide) rfl
  · intro hc; exact (hun _ hc).1 rfl
  · intro hc; exact (hcr _ hc).1 rfl
  · intro hc; exact char_ne_of_isDigit (natDecStr_digits _ _ hc) (by decide) rfl
  · intro hc; exact (hpr _ hc).1 rfl
  · intro hc; exact char_ne_of_isDigit (natDecStr_digits _ _ hc) (by decide) rfl
  · intro hc; exact (strictDateFormat_clean hdate _ hc).2.1 rfl

/-- Every character of an encoded line is the pipe or a field character; in
particular it is neither a newline nor `[`. -/
theorem encodePlayerLine_clean {p : Player} (h : encodable p) :
    ∀ c ∈ encodePlayerLine p, c ≠ '\n' ∧ c ≠ '[' := by
  obtain ⟨hid, hu, hun, hcr, hpr, ⟨n1, h1⟩, ⟨n2, h2⟩, hdate⟩ := h
  intro c hc
  rw [encodePlayerLine_eq_intercalate hu h1 h2] at hc
  rcases mem_intercalate hc with hc | ⟨f, hf, hc⟩
  · rw [List.mem_singleton.mp hc]
    exact ⟨by decide, by decide⟩
  · unfold playerFields at hf
    simp only [List.mem_cons, List.not_mem_nil, or_false] at hf
    rcases hf with rfl | rfl | rfl | rfl | rfl | rfl | rfl
    · exact ⟨char_ne_of_isDigit (hid.2 _ hc) (by decide),
        char_ne_of_isDigit (hid.2 _ hc) (by decide)⟩
    · exact ⟨(hun _ hc).2.1, (hun _ hc).2.2⟩
    · exact ⟨(hcr _ hc).2.1, (hcr _ hc).2.2⟩
    · exact ⟨char_ne_of_isDigit (natDecStr_digits _ _ hc) (by decide),
        char_ne_of_isDigit (natDecStr_digits _ _ hc) (by decide)⟩
    · exact ⟨(hpr _ hc).2.1, (hpr _ hc).2.2⟩
    · exact ⟨char_ne_of_isDigit (natDecStr_digits _ _ hc) (by decide),
        char_ne_of_isDigit (natDecStr_digits _ _ hc) (by decide)⟩
    · exact ⟨(strictDateFormat_clean hdate _ hc).2.2.1,
        (strictDateFormat_clean hdate _ hc).2.2.2⟩

theorem encodePlayerLine_ne_nil {p : Player} (h : encodable p) :
    encodePlayerLine p ≠ [] := by
  obtain ⟨⟨hne, _⟩, hu, _, _, _, ⟨n1, h1⟩, ⟨n2, h2⟩, _⟩ := h
  rw [encodePlayerLine_eq_intercalate hu h1 h2]
  unfold playerFields
  rw [intercalate_cons_cons]
  intro hc
  rcases List.append_eq_nil.mp hc with ⟨hc1, _⟩
  rcases List.append_eq_nil.mp hc1 with ⟨hc2, _⟩
  exact hne hc2

theorem encodePlayerLine_head {p : Player} (h : encodable p) :
    ∀ c, (encodePlayerLine p).head? = some c → c.isDigit = true := by
  obtain ⟨⟨hne, hid⟩, hu, _, _, _, ⟨n1, h1⟩, ⟨n2, h2⟩, _⟩ := h
  intro c hc
  rw [encodePlayerLine_eq_intercalate hu h1 h2] at hc
  unfold playerFields at hc
  rw [intercalate_cons_cons, List.append_assoc, List.head?_append] at hc
  cases hh : p.userId.head? with
  | none =>
    rw [List.head?_eq_none_iff.mp hh] at hne
    exact absurd rfl hne
  | some d =>
    rw [hh] at hc
    simp only [Option.or_some, Option.some.injEq] at hc
    subst hc
    exact hid d (by
      cases hu2 : p.userId with
      | nil => rw [hu2] at hh; exact Option.noConfusion hh
      | cons x t =>
        rw [hu2] at hh
        simp only [List.head?_cons, Option.some.injEq] at hh
        subst hh
        exact List.mem_cons_self _ _)

theorem encodePlayerLine_dropTrailing {p : Player} (h : encodable p) :
    dropTrailingWs (encodePlayerLine p) = encodePlayerLine p := by
  obtain ⟨hid, hu, hun, hcr, hpr, ⟨n1, h1⟩, ⟨n2, h2⟩, hdate⟩ := h
  have hdt : dropTrailingWs p.lastUpdated = p.lastUpdated :=
    dropTrailingWs_eq_self (fun c hc => (strictDateFormat_clean hdate c hc).1)
  have hdn : p.lastUpdated ≠ [] := strictDateFormat_ne_nil hdate
  have hdecomp : encodePlayerLine p =
      (p.userId ++ '|' :: p.username ++ '|' :: p.currentRank ++ '|' :: natDecStr n1 ++
        '|' :: p.peakRank ++ '|' :: natDecStr n2 ++ ['|']) ++ p.lastUpdated := by
    rw [encodePlayerLine_eq_intercalate hu h1 h2]
    unfold playerFields
    simp [intercalate_cons_cons, intercalate_singleton, List.append_assoc]
  rw [hdecomp, dropTrailingWs_append (by rw [hdt]; exact hdn), hdt]

theorem decodePlayerLine_encode {p : Player} (h : encodable p) :
    decodePlayerLine (encodePlayerLine p) = some p := by
  obtain ⟨hid, hu, hun, hcr, hpr, ⟨n1, h1⟩, ⟨n2, h2⟩, hdate⟩ := h
  have hsplit : jsSplit '|' (encodePlayerLine p) = playerFields p n1 n2 := by
    show (encodePlayerLine p).splitOn '|' = playerFields p n1 n2
    rw [encodePlayerLine_eq_intercalate hu h1 h2]
    exact List.splitOn_intercalate _ '|'
      (fun f hf hc => playerFields_no_pipe
        ⟨hid, hu, hun, hcr, hpr, ⟨n1, h1⟩, ⟨n2, h2⟩, hdate⟩ f hf hc)
      (by simp [playerFields])
  unfold decodePlayerLine
  rw [hsplit]
  unfold playerFields
  simp only [jsParseInt_natDecStr]
  rw [← h1, ← h2]

theorem intercalate_ne_nil {y : Str} (hy : y ≠ []) (t : List Str) :
    List.intercalate ['\n'] (y :: t) ≠ [] := by
  cases t with
  | nil => rw [intercalate_singleton]; exact hy
  | cons z t =>
    rw [intercalate_cons_cons]
    intro hc
    rcases List.append_eq_nil.mp hc with ⟨hc1, _⟩
    rcases List.append_eq_nil.mp hc1 with ⟨hc2, _⟩
    exact hy hc2

theorem head?_intercalate_cons {y : Str} (t : List Str) (hy : y ≠ []) :
    (List.intercalate ['\n'] (y :: t)).head? = y.head? := by
  cases t with
  | nil => rw [intercalate_singleton]
  | cons z t =>
    rw [intercalate_cons_cons, List.append_assoc, List.head?_append]
    cases hh : y.head? with
    | none => exact absurd (List.head?_eq_none_iff.mp hh) hy
    | some c => simp

theorem dropTrailingWs_intercalate (lines : List Str)
    (h : ∀ l ∈ lines, dropTrailingWs l = l ∧ l ≠ []) :
    dropTrailingWs (List.intercalate ['\n'] lines) = List.intercalate ['\n'] lines := by
  induction lines with
  | nil => rfl
  | cons x xs ih =>
    cases xs with
    | nil =>
      rw [intercalate_singleton]
      exact (h x (List.mem_singleton.mpr rfl)).1
    | cons y t =>
      rw [intercalate_cons_cons, List.append_assoc]
      have hrest := ih (fun l hl => h l (List.mem_cons_of_mem x hl))
      have hrne : List.intercalate ['\n'] (y :: t) ≠ [] :=
        intercalate_ne_nil (h y (by simp)).2 t
      have hinner : dropTrailingWs (['\n'] ++ List.intercalate ['\n'] (y :: t)) =
          ['\n'] ++ List.intercalate ['\n'] (y :: t) := by
        rw [dropTrailingWs_append (by rw [hrest]; exact hrne), hrest]
      rw [dropTrailingWs_append (by rw [hinner]; simp), hinner]

theorem filterMap_decode_map_encode :
    ∀ {l : List Player}, (∀ p ∈ l, decodePlayerLine (encodePlayerLine p) = some p) →
      List.filterMap decodePlayerLine (l.map encodePlayerLine) = l := by
  intro l
  induction l with
  | nil => intro _; rfl
  | cons p t ih =>
    intro h
    rw [List.map_cons, List.filterMap_cons, h p (List.mem_cons_self p t)]
    rw [ih (fun q hq => h q (List.mem_cons_of_mem p hq))]

theorem decodePlayerData_encode (players : List Player)
    (h : ∀ p ∈ players, encodable p) (hne : players ≠ []) :
    decodePlayerData (encodePlayerData players) = players := by
  obtain ⟨p0, rest, rfl⟩ : ∃ p0 rest, players = p0 :: rest := by
    cases players with
    | nil => exact absurd rfl hne
    | cons p0 rest => exact ⟨p0, rest, rfl⟩
  have hlfacts : ∀ l ∈ (p0 :: rest).map encodePlayerLine,
      dropTrailingWs l = l ∧ l ≠ [] := by
    intro l hl
    obtain ⟨q, hq, rfl⟩ := List.mem_map.mp hl
    exact ⟨encodePlayerLine_dropTrailing (h q hq), encodePlayerLine_ne_nil (h q hq)⟩
  have hnonl : ∀ l ∈ (p0 :: rest).map encodePlayerLine, '\n' ∉ l := by
    intro l hl hc
    obtain ⟨q, hq, rfl⟩ := List.mem_map.mp hl
    exact (encodePlayerLine_clean (h q hq) '\n' hc).1 rfl
  have hdata : encodePlayerData (p0 :: rest) =
      List.intercalate ['\n'] ((p0 :: rest).map encodePlayerLine) := rfl
  have hdne : encodePlayerData (p0 :: rest) ≠ [] := by
    rw [hdata, List.map_cons]
    exact intercalate_ne_nil (encodePlayerLine_ne_nil (h p0 (List.mem_cons_self _ _))) _
  have htrim : jsTrim (encodePlayerData (p0 :: rest)) = encodePlayerData (p0 :: rest) := by
    apply jsTrim_eq_self
    · intro c hc
      rw [hdata, List.map_cons] at hc
      rw [head?_intercalate_cons _ (encodePlayerLine_ne_nil (h p0 (List.mem_cons_self _ _)))] at hc
      exact isWs_eq_false_of_isDigit
        (encodePlayerLine_head (h p0 (List.mem_cons_self _ _)) c hc)
    · rw [hdata]
      exact dropTrailingWs_intercalate _ hlfacts
  have hsplit : (encodePlayerData (p0 :: rest)).splitOn '\n' =
      (p0 :: rest).map encodePlayerLine := by
    rw [hdata]
    exact List.splitOn_intercalate _ '\n' hnonl (by simp)
  have hfilter : ((p0 :: rest).map encodePlayerLine).filter
      (fun line => !(jsTrim line).isEmpty) = (p0 :: rest).map encodePlayerLine := by
    rw [List.filter_eq_self]
    intro l hl
    obtain ⟨q, hq, rfl⟩ := List.mem_map.mp hl
    obtain ⟨c, t, hct⟩ : ∃ c t, encodePlayerLine q = c :: t := by
      cases hs : encodePlayerLine q with
      | nil => exact absurd hs (encodePlayerLine_ne_nil (h q hq))
      | cons c t => exact ⟨c, t, rfl⟩
    have hcd : c.isDigit = true :=
      encodePlayerLine_head (h q hq) c (by rw [hct]; rfl)
    have : jsTrim (c :: t) ≠ [] := jsTrim_ne_nil (isWs_eq_false_of_isDigit hcd)
    rw [hct]
    simpa using this
  unfold decodePlayerData
  rw [htrim, hsplit, hfilter]
  rw [if_neg (by simp [hdne])]
  exact filterMap_decode_map_encode
    (fun p hp => decodePlayerLine_encode (h p hp))

theorem splitOn_eq_single {s : Str} (h : '\n' ∉ s) : s.splitOn '\n' = [s] := by
  show s.splitOnP (· == '\n') = [s]
  apply List.splitOnP_eq_single
  intro x hx hbeq
  exact h (eq_of_beq hbeq ▸ hx)

theorem encodeCursor_facts (cursor : Option Str) (h : cursorOk cursor) :
    encodeCursor cursor ≠ [] ∧
    (∀ c ∈ encodeCursor cursor, isWs c = false ∧ c ≠ '[' ∧ c ≠ '\n') := by
  cases cursor with
  | none => exact ⟨by decide, by decide⟩
  | some s =>
    obtain ⟨hne, hd⟩ := h
    have he : encodeCursor (some s) = s := by
      show (if s.isEmpty = true then "none".data else s) = s
      rw [if_neg (by simpa using hne)]
    rw [he]
    exact ⟨hne, fun c hc =>
      ⟨isWs_eq_false_of_isDigit (hd c hc),
       char_ne_of_isDigit (hd c hc) (by decide),
       char_ne_of_isDigit (hd c hc) (by decide)⟩⟩

theorem lastLine_facts (cursor : Option Str) (h : cursorOk cursor) :
    ∀ c ∈ "LAST:".data ++ encodeCursor cursor,
      isWs c = false ∧ c ≠ '[' ∧ c ≠ '\n' := by
  intro c hc
  rcases List.mem_append.mp hc with hc | hc
  · fin_cases hc <;> exact ⟨by decide, by decide, by decide⟩
  · exact (encodeCursor_facts cursor h).2 c hc

/-- The text between the markers produced by `encodeState`. -/
def encodedMid (cursor : Option Str) (players : List Player) : Str :=
  ['\n'] ++ (("LAST:".data ++ encodeCursor cursor) ++
    (['\n'] ++ (encodePlayerData players ++ ['\n'])))

theorem encodedMid_no_bracket (cursor : Option Str) (players : List Player)
    (hcur : cursorOk cursor) (hps : ∀ p ∈ players, encodable p) :
    ∀ c ∈ encodedMid cursor players, c ≠ '[' := by
  intro c hc
  unfold encodedMid at hc
  rcases List.mem_append.mp hc with hc | hc
  · rw [List.mem_singleton.mp hc]; decide
  rcases List.mem_append.mp hc with hc | hc
  · exact (lastLine_facts cursor hcur c hc).2.1
  rcases List.mem_append.mp hc with hc | hc
  · rw [List.mem_singleton.mp hc]; decide
  rcases List.mem_append.mp hc with hc | hc
  · rcases mem_intercalate hc with hc | ⟨l, hl, hc⟩
    · rw [List.mem_singleton.mp hc]; decide
    · obtain ⟨q, hq, rfl⟩ := List.mem_map.mp hl
      exact (encodePlayerLine_clean (hps q hq) c hc).2
  · rw [List.mem_singleton.mp hc]; decide

theorem encodeState_decomp (cursor : Option Str) (players : List Player) :
    encodeState cursor players =
      dataStartMarker ++ (encodedMid cursor players ++ dataEndMarker) := by
  unfold encodeState encodedMid
  have hsep : "\n".data = ['\n'] := rfl
  rw [hsep, intercalate_cons_cons, intercalate_cons_cons, intercalate_cons_cons,
    intercalate_singleton]
  simp [List.append_assoc]

/-- The core decode-of-encode lemma: an `encodeState` section appended to any
`[`-free visible prefix decodes back to exactly the cursor and entity list
that were encoded, provided cursor and entities satisfy the round-trip
conditions. -/
theorem decodeState_append_encode (pre : Str) (cursor : Option Str)
    (players : List Player)
    (hpre : ∀ c ∈ pre, c ≠ '[')
    (hcur : cursorOk cursor)
    (hps : ∀ p ∈ players, encodable p) :
    decodeState (pre ++ encodeState cursor players) = ⟨cursor, players⟩ := by
  have hmidB := encodedMid_no_bracket cursor players hcur hps
  have hdecomp := encodeState_decomp cursor players
  -- the whole message and its shape
  have hs : pre ++ encodeState cursor players =
      pre ++ (dataStartMarker ++ (encodedMid cursor players ++ dataEndMarker)) := by
    rw [hdecomp]
  have hsne : (pre ++ encodeState cursor players).isEmpty = false := by
    rw [hs]
    cases pre <;> rfl
  -- start marker position
  have hsi : firstSublistIdx (pre ++ encodeState cursor players) dataStartMarker =
      some pre.length := by
    rw [hs, firstSublistIdx_append_left
      (show dataStartMarker.head? = some '[' from rfl) pre hpre,
      firstSublistIdx_self_append]
    simp
  -- end marker position
  have hinner : firstSublistIdx
      (dataStartMarker ++ (encodedMid cursor players ++ dataEndMarker))
      dataEndMarker = some (9 + (encodedMid cursor players).length) := by
    have hstep : dataStartMarker ++ (encodedMid cursor players ++ dataEndMarker) =
        '[' :: ("DATA:v1]".data ++ (encodedMid cursor players ++ dataEndMarker)) := rfl
    rw [hstep, firstSublistIdx_cons]
    rw [if_neg (by simp [dataEndMarker, List.isPrefixOf])]
    rw [firstSublistIdx_append_left
        (show dataEndMarker.head? = some '[' from rfl) "DATA:v1]".data (by decide),
      firstSublistIdx_append_left
        (show dataEndMarker.head? = some '[' from rfl) (encodedMid cursor players)
        (fun c hc he => hmidB c hc he),
      firstSublistIdx_of_isPrefixOf
        (List.isPrefixOf_iff_prefix.mpr (List.prefix_refl dataEndMarker))]
    simp only [Option.map_some']
    congr 1
    have h8 : ("DATA:v1]".data).length = 8 := rfl
    rw [h8]
    omega
  have hei : firstSublistIdx (pre ++ encodeState cursor players) dataEndMarker =
      some (9 + (encodedMid cursor players).length + pre.length) := by
    rw [hs, firstSublistIdx_append_left
      (show dataEndMarker.head? = some '[' from rfl) pre hpre, hinner]
    rfl
  -- the substring between the markers
  have hsub : jsSubstring (pre ++ encodeState cursor players)
      (pre.length + dataStartMarker.length)
      (9 + (encodedMid cursor players).length + pre.length) = encodedMid cursor players := by
    have hshape : pre ++ encodeState cursor players =
        (pre ++ dataStartMarker) ++ (encodedMid cursor players ++ dataEndMarker) := by
      rw [hs]
      simp [List.append_assoc]
    rw [hshape]
    have hx := jsSubstring_extract (pre ++ dataStartMarker) (encodedMid cursor players)
      dataEndMarker
    have hl1 : (pre ++ dataStartMarker).length = pre.length + dataStartMarker.length := by
      simp
    rw [hl1] at hx
    have hl2 : pre.length + dataStartMarker.length + (encodedMid cursor players).length =
        9 + (encodedMid cursor players).length + pre.length := by
      have h9 : dataStartMarker.length = 9 := rfl
      rw [h9]
      omega
    rw [hl2] at hx
    exact hx
  -- assemble
  unfold decodeState
  rw [hsne]
  simp only [Bool.false_eq_true, if_false]
  rw [hsi, hei]
  simp only []
  rw [hsub]
  -- facts about the `LAST:` line
  have hlastfacts := lastLine_facts cursor hcur
  have hlasthead : ("LAST:".data ++ encodeCursor cursor).head? = some 'L' := rfl
  have hlasttrim : jsTrim ("LAST:".data ++ encodeCursor cursor) =
      "LAST:".data ++ encodeCursor cursor := by
    apply jsTrim_eq_self
    · intro c hc
      rw [hlasthead] at hc
      rw [← Option.some.inj hc]
      decide
    · exact dropTrailingWs_eq_self (fun c hc => (hlastfacts c hc).1)
  have hnl : '\n' ∉ "LAST:".data ++ encodeCursor cursor :=
    fun hc => (hlastfacts _ hc).2.2 rfl
  have hml : matchLastLine ("LAST:".data ++ encodeCursor cursor) =
      some (encodeCursor cursor) := by
    unfold matchLastLine
    rw [if_pos (List.isPrefixOf_iff_prefix.mpr (List.prefix_append _ _))]
    simp only
    rw [List.drop_left' (show ("LAST:".data).length = 5 from rfl)]
    rw [if_neg (by simpa using (encodeCursor_facts cursor hcur).1)]
  have hcursor : (match matchLastLine ("LAST:".data ++ encodeCursor cursor) with
      | some g => if g = ['n', 'o', 'n', 'e'] then none else some g
      | none => none) = cursor := by
    rw [hml]
    cases cursor with
    | none => rfl
    | some s =>
      obtain ⟨hne, hd⟩ := hcur
      have he : encodeCursor (some s) = s := by
        show (if s.isEmpty = true then "none".data else s) = s
        rw [if_neg (by simpa using hne)]
      rw [he]
      simp only
      rw [if_neg (fun heq => by
        have : ('n').isDigit = true := hd 'n' (by rw [heq]; decide)
        exact absurd this (by decide))]
  rcases players with _ | ⟨p0, rest⟩
  · -- no players: the section is [DATA]\nLAST:cur\n\n[/DATA]
    have hmid : encodedMid cursor [] =
        '\n' :: ((("LAST:".data ++ encodeCursor cursor) ++ ['\n']) ++ ['\n']) := by
      unfold encodedMid encodePlayerData
      simp [List.append_assoc, intercalate_nil]
    rw [hmid, jsTrim_cons_nl, jsTrim_append_nl, jsTrim_append_nl, hlasttrim]
    rw [show jsSplit '\n' ("LAST:".data ++ encodeCursor cursor) =
      ["LAST:".data ++ encodeCursor cursor] from splitOn_eq_single hnl]
    simp only [List.headD_cons, List.drop_one, List.tail_cons]
    rw [hcursor]
    rfl
  · -- at least one player
    have hdata : encodePlayerData (p0 :: rest) =
        List.intercalate ['\n'] ((p0 :: rest).map encodePlayerLine) := rfl
    have hlfacts : ∀ l ∈ (p0 :: rest).map encodePlayerLine,
        dropTrailingWs l = l ∧ l ≠ [] := by
      intro l hl
      obtain ⟨q, hq, rfl⟩ := List.mem_map.mp hl
      exact ⟨encodePlayerLine_dropTrailing (hps q hq),
        encodePlayerLine_ne_nil (hps q hq)⟩
    have hdtrail : dropTrailingWs (encodePlayerData (p0 :: rest)) =
        encodePlayerData (p0 :: rest) := by
      rw [hdata]
      exact dropTrailingWs_intercalate _ hlfacts
    have hdne : encodePlayerData (p0 :: rest) ≠ [] := by
      rw [hdata, List.map_cons]
      exact intercalate_ne_nil
        (encodePlayerLine_ne_nil (hps p0 (List.mem_cons_self _ _))) _
    have hmid : encodedMid cursor (p0 :: rest) =
        '\n' :: ((("LAST:".data ++ encodeCursor cursor) ++
          ('\n' :: encodePlayerData (p0 :: rest))) ++ ['\n']) := by
      unfold encodedMid
      simp [List.append_assoc]
    rw [hmid, jsTrim_cons_nl, jsTrim_append_nl]
    have htr : jsTrim (("LAST:".data ++ encodeCursor cursor) ++
        ('\n' :: encodePlayerData (p0 :: rest))) =
        ("LAST:".data ++ encodeCursor cursor) ++
          ('\n' :: encodePlayerData (p0 :: rest)) := by
      apply jsTrim_eq_self
      · intro c hc
        rw [List.head?_append, hlasthead] at hc
        have hcL : 'L' = c := Option.some.inj hc
        rw [← hcL]
        decide
      · have hinner2 : dropTrailingWs ('\n' :: encodePlayerData (p0 :: rest)) =
            '\n' :: encodePlayerData (p0 :: rest) := by
          rw [show ('\n' :: encodePlayerData (p0 :: rest)) =
            ['\n'] ++ encodePlayerData (p0 :: rest) from rfl]
          rw [dropTrailingWs_append (by rw [hdtrail]; exact hdne), hdtrail]
        rw [dropTrailingWs_append (by rw [hinner2]; exact List.cons_ne_nil _ _), hinner2]
    rw [htr]
    have hjoin : ("LAST:".data ++ encodeCursor cursor) ++
        ('\n' :: encodePlayerData (p0 :: rest)) =
        List.intercalate ['\n']
          (("LAST:".data ++ encodeCursor cursor) :: (p0 :: rest).map encodePlayerLine) := by
      rw [List.map_cons, intercalate_cons_cons, ← List.map_cons, ← hdata]
      simp [List.append_assoc]
    have hnoln : ∀ l ∈ ("LAST:".data ++ encodeCursor cursor) ::
        (p0 :: rest).map encodePlayerLine, '\n' ∉ l := by
      intro l hl
      rcases List.mem_cons.mp hl with rfl | hl
      · exact hnl
      · obtain ⟨q, hq, rfl⟩ := List.mem_map.mp hl
        exact fun hc => (encodePlayerLine_clean (hps q hq) '\n' hc).1 rfl
    have hsplitm : jsSplit '\n' (("LAST:".data ++ encodeCursor cursor) ++
        ('\n' :: encodePlayerData (p0 :: rest))) =
        ("LAST:".data ++ encodeCursor cursor) :: (p0 :: rest).map encodePlayerLine := by
      rw [hjoin]
      exact List.splitOn_intercalate _ '\n' hnoln (by simp)
    rw [hsplitm]
    simp only [List.headD_cons, List.drop_one, List.tail_cons]
    rw [hcursor, ← hdata]
    rw [decodePlayerData_encode (p0 :: rest) hps (by simp)]

/-- C1 (amended): decode∘encode is the identity on cursor and entity list —
hence also order-independent-equal — provided, beyond the Data Model
invariants the claim lists, that the cursor is null or a non-empty digit
string, usernames are non-empty, and the free-form fields (username, tier
labels) contain no `|`, newline, or `[`. -/
theorem encode_decode_roundtrip (cursor : Option Str) (players : List Player)
    (hcur : cursorOk cursor) (hps : ∀ p ∈ players, encodable p) :
    decodeState (encodeState cursor players) = ⟨cursor, players⟩ := by
  have h := decodeState_append_encode [] cursor players (by simp) hcur hps
  simpa using h

/-- An entity satisfying the Data Model invariants the claim lists (unique
id, non-negative integer scores, strict date — it even passes
`validatePlayerData`) whose username contains the `|` delimiter. -/
def c1bad : Player :=
  ⟨"1".data, "a|b".data, "D".data, some 2, "M".data, some 3, "2026-02-14".data⟩

/-- C1 counterexample: for a collection satisfying the stated invariants,
decode of encode does not return an equivalent entity set — the `|` inside
the username shifts every later field of the line. -/
theorem roundtrip_fails_on_pipe_username :
    uniqueIds [c1bad] ∧ validatePlayerData c1bad = true ∧
    ¬ (decodeState (encodeState (some "7".data) [c1bad])).players.Perm [c1bad] := by
  decide

/-- First witness entity for C1. -/
def c1a : Player :=
  ⟨"1".data, "Alpha".data, "Diamond".data, some 2450, "Master".data, some 2610,
   "2026-02-14".data⟩

/-- Second witness entity for C1. -/
def c1b : Player :=
  ⟨"2".data, "Beta".data, "Gold".data, some 1980, "Plat".data, some 2100,
   "2026-02-10".data⟩

/-- Witness for C1's amended theorem at a concrete two-entity collection. -/
theorem encode_decode_roundtrip_witness :
    decodeState (encodeState (some "77".data) [c1a, c1b]) =
      ⟨some "77".data, [c1a, c1b]⟩ :=
  encode_decode_roundtrip (some "77".data) [c1a, c1b] ⟨by decide, by decide⟩
    (by
      intro p hp
      rcases List.mem_cons.mp hp with rfl | hp
      · exact ⟨⟨by decide, by decide⟩, by decide, by decide, by decide, by decide,
          ⟨2450, by decide⟩, ⟨2610, by decide⟩, by decide⟩
      · rcases List.mem_singleton.mp hp with rfl
        exact ⟨⟨by decide, by decide⟩, by decide, by decide, by decide, by decide,
          ⟨1980, by decide⟩, ⟨2100, by decide⟩, by decide⟩)

/-! ## Sync merge step (`sync.js`, step 4 of `syncGame`) and its theorems -/

/-- The player record built in the sync loop from one successful parse and
the resolved username (`resolveUsername` is external I/O and is passed in as
a function). -/
def playerOfUpdate (resolve : Str → Str) (u : SuccessfulParse) : Player :=
  { userId := u.data.userId
    username := resolve u.data.userId
    currentRank := u.data.currentRank
    currentRankScore := some u.data.currentRankScore
    peakRank := u.data.peakRank
    peakRankScore := some u.data.peakRankScore
    lastUpdated := u.data.lastUpdated }

/-- State carried by the step-4 loop of `syncGame`. -/
structure MergeOutcome where
  players : List Player
  updatedCount : Nat
  lastMessageId : Option Str
  deriving DecidableEq, Repr

/-- The update-processing loop of `syncGame`: a record failing
`validatePlayerData` is skipped by `continue` — which happens before the
`lastMessageId = update.messageId` assignment — while a merged record
(whether applied or stale) advances `lastMessageId`. The try/catch is not
modeled: the operations inside are pure and total here. -/
def processUpdates (resolve : Str → Str) :
    List Player → Nat → Option Str → List SuccessfulParse → MergeOutcome
  | players, updatedCount, lastMessageId, [] => ⟨players, updatedCount, lastMessageId⟩
  | players, updatedCount, lastMessageId, update :: rest =>
    let playerData := playerOfUpdate resolve update
    if validatePlayerData playerData = false then
      processUpdates resolve players updatedCount lastMessageId rest
    else
      let result := upsertPlayer players playerData
      processUpdates resolve result.players
        (if result.updated then updatedCount + 1 else updatedCount)
        (some update.messageId) rest

/-- Specification of the final cursor: the message id of the last record
that passed validation, or the initial cursor when none did. -/
def lastValidMessageId (resolve : Str → Str) (init : Option Str) :
    List SuccessfulParse → Option Str
  | [] => init
  | u :: rest =>
    lastValidMessageId resolve
      (if validatePlayerData (playerOfUpdate resolve u) then some u.messageId else init)
      rest

/-- C4 (amended): after the merge loop, the cursor is the originating message
id of the last record that passed entity-field validation (stale outcomes
included), and records that failed validation never advance it — the initial
cursor survives a batch containing only invalid records. -/
theorem processUpdates_cursor (resolve : Str → Str) (updates : List SuccessfulParse) :
    ∀ (ps : List Player) (n : Nat) (c : Option Str),
      (processUpdates resolve ps n c updates).lastMessageId =
        lastValidMessageId resolve c updates := by
  induction updates with
  | nil => intro ps n c; rfl
  | cons u rest ih =>
    intro ps n c
    by_cases h : validatePlayerData (playerOfUpdate resolve u) = false
    · simp only [processUpdates, lastValidMessageId, h, if_true]
      rw [if_neg (by simp [h])]
      exact ih ps n c
    · have h' : validatePlayerData (playerOfUpdate resolve u) = true := by
        simpa using h
      simp only [processUpdates, lastValidMessageId, h', if_true]
      rw [if_neg (by simp [h'])]
      exact ih _ _ _

/-- A record whose entity fields fail validation (negative score); such a
record cannot be produced by the parser, but it is exactly the input class
the claim speaks about. -/
def c4bad : SuccessfulParse :=
  ⟨"55".data, ⟨"9".data, "D".data, -5, "M".data, 6, "2026-02-14".data, "<@9>".data⟩⟩

/-- C4 counterexample: a batch consisting of one record that fails
entity-field validation leaves the cursor at its initial value (`none`), not
at the record's originating message id `"55"` as the claim requires. -/
theorem processUpdates_invalid_keeps_cursor :
    (processUpdates (fun _ => "bob".data) [] 0 none [c4bad]).lastMessageId = none ∧
    (processUpdates (fun _ => "bob".data) [] 0 none [c4bad]).lastMessageId ≠
      some "55".data ∧
    validatePlayerData (playerOfUpdate (fun _ => "bob".data) c4bad) = false := by
  decide

/-- Witness for C4's amended theorem: a stale record still advances the
cursor — the update is older than the stored entity, yet the cursor moves to
its message id. -/
theorem processUpdates_cursor_witness :
    (processUpdates (fun _ => "bob".data)
        [⟨"9".data, "u".data, "D".data, some 5, "M".data, some 6, "2026-02-14".data⟩]
        0 none
        [⟨"55".data, ⟨"9".data, "D".data, 4, "M".data, 6, "2026-02-10".data, "<@9>".data⟩⟩]
      ).lastMessageId = some "55".data := by
  rw [processUpdates_cursor (fun _ => "bob".data)
    [⟨"55".data, ⟨"9".data, "D".data, 4, "M".data, 6, "2026-02-10".data, "<@9>".data⟩⟩]
    [⟨"9".data, "u".data, "D".data, some 5, "M".data, some 6, "2026-02-14".data⟩] 0 none]
  decide

/-! ## Data-model invariants (C5) -/

theorem list_set_self {α : Type} {l : List α} {j : Nat} {a : α}
    (h : l[j]? = some a) : l.set j a = l := by
  induction l generalizing j with
  | nil => simp at h
  | cons x xs ih =>
    cases j with
    | zero =>
      simp only [List.getElem?_cons_zero, Option.some.injEq] at h
      simp [h]
    | succ j =>
      simp only [List.getElem?_cons_succ] at h
      simp [ih h]

theorem upsert_mem {ps : List Player} {u p : Player}
    (h : p ∈ (upsertPlayer ps u).players) : p ∈ ps ∨ p = u := by
  cases hf : ps.findIdx? (fun q => q.userId == u.userId) with
  | none =>
    rw [upsert_of_findIdx_none hf] at h
    rcases List.mem_append.mp h with h | h
    · exact Or.inl h
    · exact Or.inr (List.mem_singleton.mp h)
  | some j =>
    obtain ⟨hj, hpj, _⟩ := List.findIdx?_eq_some_iff_getElem.mp hf
    rw [upsert_of_findIdx_some hf (List.getElem?_eq_getElem hj)] at h
    by_cases hd : jsDateLt u.lastUpdated ps[j].lastUpdated
    · rw [if_pos hd] at h
      exact Or.inl h
    · rw [if_neg hd] at h
      exact List.mem_or_eq_of_mem_set h

theorem upsert_uniqueIds {ps : List Player} {u : Player}
    (h : uniqueIds ps) : uniqueIds (upsertPlayer ps u).players := by
  cases hf : ps.findIdx? (fun q => q.userId == u.userId) with
  | none =>
    rw [upsert_of_findIdx_none hf]
    have hnotin : u.userId ∉ ps.map Player.userId := by
      intro hmem
      obtain ⟨q, hq, hqe⟩ := List.mem_map.mp hmem
      have hq' := List.findIdx?_eq_none_iff.mp hf q hq
      rw [hqe] at hq'
      simp at hq'
    unfold uniqueIds at h ⊢
    simp only [List.map_append]
    exact List.Nodup.append h (List.nodup_singleton _)
      (fun a ha hb => hnotin (List.mem_singleton.mp hb ▸ ha))
  | some j =>
    obtain ⟨hj, hpj, _⟩ := List.findIdx?_eq_some_iff_getElem.mp hf
    rw [upsert_of_findIdx_some hf (List.getElem?_eq_getElem hj)]
    by_cases hd : jsDateLt u.lastUpdated ps[j].lastUpdated
    · rw [if_pos hd]
      exact h
    · rw [if_neg hd]
      unfold uniqueIds at h ⊢
      rw [List.map_set]
      rw [list_set_self (by rw [List.getElem?_map, List.getElem?_eq_getElem hj]; simp [eq_of_beq hpj])]
      exact h

/-- C5 (amended): through the sync merge step, uniqueness of ids is
preserved, and every entity of the output either was already present or
passed `validatePlayerData` — i.e. its scores are not negative and its
`lastUpdated` matches the strict `YYYY-MM-DD` pattern.  (The decode path has
no such guarantee; see the counterexample.) -/
theorem processUpdates_invariants (resolve : Str → Str) (updates : List SuccessfulParse) :
    ∀ (ps : List Player) (n : Nat) (c : Option Str), uniqueIds ps →
      uniqueIds (processUpdates resolve ps n c updates).players ∧
      ∀ p ∈ (processUpdates resolve ps n c updates).players,
        p ∈ ps ∨ (validatePlayerData p = true ∧
          jsNumLtZero p.currentRankScore = false ∧
          jsNumLtZero p.peakRankScore = false ∧
          strictDateFormat p.lastUpdated = true) := by
  induction updates with
  | nil =>
    intro ps n c h
    exact ⟨h, fun p hp => Or.inl hp⟩
  | cons u rest ih =>
    intro ps n c h
    by_cases hv : validatePlayerData (playerOfUpdate resolve u) = false
    · simp only [processUpdates, hv, if_true]
      exact ih ps n c h
    · have hv' : validatePlayerData (playerOfUpdate resolve u) = true := by simpa using hv
      simp only [processUpdates, hv', if_true]
      rw [if_neg (by simp)]
      obtain ⟨ih1, ih2⟩ := ih (upsertPlayer ps (playerOfUpdate resolve u)).players
        (if (upsertPlayer ps (playerOfUpdate resolve u)).updated then n + 1 else n)
        (some u.messageId) (upsert_uniqueIds h)
      refine ⟨ih1, fun p hp => ?_⟩
      rcases ih2 p hp with hmem | hvalid
      · rcases upsert_mem hmem with hmem' | rfl
        · exact Or.inl hmem'
        · refine Or.inr ⟨hv', ?_, ?_, ?_⟩
          · have := hv'
            unfold validatePlayerData at this
            by_cases hz : jsNumLtZero (playerOfUpdate resolve u).currentRankScore ||
                jsNumLtZero (playerOfUpdate resolve u).peakRankScore
            · rw [if_pos hz] at this; cases this
            · simpa using (Bool.or_eq_false_iff.mp (by simpa using hz)).1
          · have := hv'
            unfold validatePlayerData at this
            by_cases hz : jsNumLtZero (playerOfUpdate resolve u).currentRankScore ||
                jsNumLtZero (playerOfUpdate resolve u).peakRankScore
            · rw [if_pos hz] at this; cases this
            · simpa using (Bool.or_eq_false_iff.mp (by simpa using hz)).2
          · have := hv'
            unfold validatePlayerData at this
            by_cases hz : jsNumLtZero (playerOfUpdate resolve u).currentRankScore ||
                jsNumLtZero (playerOfUpdate resolve u).peakRankScore
            · rw [if_pos hz] at this; cases this
            · rwa [if_neg hz] at this
      · exact Or.inr hvalid

/-- Witness for C5's amended theorem at concrete inputs: merging one valid
update into a unique collection keeps ids unique and every present entity
valid or pre-existing. -/
theorem processUpdates_invariants_witness :
    uniqueIds (processUpdates (fun _ => "bob".data) [] 0 none
      [⟨"55".data, ⟨"9".data, "D".data, 4, "M".data, 6, "2026-02-10".data, "<@9>".data⟩⟩]
      ).players ∧
    ∀ p ∈ (processUpdates (fun _ => "bob".data) [] 0 none
      [⟨"55".data, ⟨"9".data, "D".data, 4, "M".data, 6, "2026-02-10".data, "<@9>".data⟩⟩]
      ).players,
      p ∈ ([] : List Player) ∨ (validatePlayerData p = true ∧
        jsNumLtZero p.currentRankScore = false ∧
        jsNumLtZero p.peakRankScore = false ∧
        strictDateFormat p.lastUpdated = true) :=
  processUpdates_invariants (fun _ => "bob".data)
    [⟨"55".data, ⟨"9".data, "D".data, 4, "M".data, 6, "2026-02-10".data, "<@9>".data⟩⟩]
    [] 0 none (by simp [uniqueIds])

/-- Container text carrying an entity line with a negative score. -/
def c5text : Str := "[DATA:v1]\nLAST:none\n9|u|D|-5|M|2|2026-02-14\n[/DATA]".data

/-- The invalid entity that the decoder admits. -/
def c5bad : Player :=
  ⟨"9".data, "u".data, "D".data, some (-5), "M".data, some 2, "2026-02-14".data⟩

/-- C5 counterexample: `decodePlayerData` performs no field validation — a
container line with score `-5` decodes into the collection even though the
entity fails the non-negative-score invariant (and `validatePlayerData`). -/
theorem decodeState_admits_invalid :
    (decodeState c5text).players = [c5bad] ∧
    jsNumLtZero c5bad.currentRankScore = true ∧
    validatePlayerData c5bad = false := by
  decide

/-- Concrete update used to refute the "updated then stale" outcome claim. -/
def c3u : Player :=
  ⟨"9".data, "U".data, "D".data, some 10, "M".data, some 20, "2026-02-14".data⟩

/-- C3 counterexample: applying the same update twice, the first application
reports `updated` and the second application also reports `updated`
(`true`), not stale (`false`): an equal declared date is treated as
equal-or-newer and replaces the entity. -/
theorem upsert_twice_not_stale :
    (upsertPlayer [] c3u).updated = true ∧
    (upsertPlayer (upsertPlayer [] c3u).players c3u).updated = true ∧
    (upsertPlayer (upsertPlayer [] c3u).players c3u).updated ≠ false := by
  decide

/-- C9: when either the start marker `[DATA:v1]` or the end marker `[/DATA]`
does not occur in the container text, `decodeState` returns a `null` cursor
("none") and an empty collection; the function is total, so no error is
raised. -/
theorem decodeState_uninitialized (msg : Str)
    (h : firstSublistIdx msg dataStartMarker = none ∨
         firstSublistIdx msg dataEndMarker = none) :
    decodeState msg = ⟨none, []⟩ := by
  unfold decodeState
  by_cases hm : msg.isEmpty
  · simp [hm]
  · simp only [hm, Bool.false_eq_true, if_false]
    cases hs : firstSublistIdx msg dataStartMarker with
    | none => rfl
    | some s =>
      cases he : firstSublistIdx msg dataEndMarker with
      | none => rfl
      | some e =>
        rcases h with h | h
        · rw [hs] at h; cases h
        · rw [he] at h; cases h

/-- Witness for C9: a text with no data section decodes to the uninitialized
state. -/
theorem decodeState_uninitialized_witness :
    decodeState "hello world".data = ⟨none, []⟩ :=
  decodeState_uninitialized "hello world".data (by decide)

/-! ## Ranking -/

/-- Entity 1 of the ranking example. -/
def c7p1 : Player :=
  ⟨"1".data, "P1".data, "D".data, some 2450, "M".data, some 2610, "2026-02-14".data⟩

/-- Entity 2 of the ranking example. -/
def c7p2 : Player :=
  ⟨"2".data, "P2".data, "D".data, some 2450, "M".data, some 2700, "2026-02-13".data⟩

/-- Entity 3 of the ranking example. -/
def c7p3 : Player :=
  ⟨"3".data, "P3".data, "G".data, some 1980, "P".data, some 2100, "2026-02-10".data⟩

/-- C7: the three example entities rank as [2, 1, 3], and in general the
comparator orders `a` strictly before `b` exactly by descending current
score, then descending peak score, then most recent (larger) calendar date. -/
theorem sortPlayers_ranking :
    sortPlayers [c7p1, c7p2, c7p3] = [c7p2, c7p1, c7p3] ∧
    ∀ (a b : Player) (csa csb psa psb : Int) (da db : Nat),
      a.currentRankScore = some csa → b.currentRankScore = some csb →
      a.peakRankScore = some psa → b.peakRankScore = some psb →
      parseISODate a.lastUpdated = some da → parseISODate b.lastUpdated = some db →
      (playerCmp a b < 0 ↔
        (csb < csa ∨ (csb = csa ∧ psb < psa) ∨
         (csb = csa ∧ psb = psa ∧ db < da))) := by
  constructor
  · decide
  · intro a b csa csb psa psb da db hca hcb hpa hpb hda hdb
    unfold playerCmp
    rw [hca, hcb, hpa, hpb, hda, hdb]
    unfold jsStrictNe jsSub sortKey
    by_cases h1 : csb = csa
    · simp only [h1]
      by_cases h2 : psb = psa
      · simp only [h2]
        simp only [bne_self_eq_false, Bool.false_eq_true, if_false]
        simp only [lt_self_iff_false, true_and, false_or]
        omega
      · have : (psb != psa) = true := by simpa using h2
        simp only [bne_self_eq_false, Bool.false_eq_true, if_false, this, if_true]
        simp only [Option.getD_some]
        simp only [lt_self_iff_false, true_and, false_or]
        omega
    · have : (csb != csa) = true := by simpa using h1
      simp only [this, if_true, Option.getD_some]
      omega

/-- Witness for C7's general comparator characterization at concrete
entities: entity 3 (current 1980) sorts strictly after entity 1 (current
2450). -/
theorem sortPlayers_ranking_witness :
    playerCmp c7p1 c7p3 < 0 ↔
      ((1980 : Int) < 2450 ∨ ((1980 : Int) = 2450 ∧ (2100 : Int) < 2610) ∨
       ((1980 : Int) = 2450 ∧ (2100 : Int) = 2610 ∧ 20260210 < 20260214)) :=
  sortPlayers_ranking.2 c7p1 c7p3 2450 1980 2610 2100 20260214 20260210
    (by decide) (by decide) (by decide) (by decide) (by decide) (by decide)

/-! ## Renderer character lemmas (C8) -/

theorem chunk3_mem : ∀ (s : Str), ∀ l ∈ chunk3 s, ∀ c ∈ l, c ∈ s := by
  intro s
  induction s using chunk3.induct with
  | case1 => intro l hl; cases hl
  | case2 a =>
    intro l hl c hc
    rw [List.mem_singleton.mp hl] at hc
    exact hc
  | case3 a b =>
    intro l hl c hc
    rw [List.mem_singleton.mp hl] at hc
    exact hc
  | case4 a b c =>
    intro l hl d hd
    rw [List.mem_singleton.mp hl] at hd
    exact hd
  | case5 a b c rest h1 ih =>
    intro l hl d hd
    cases rest with
    | nil => exact absurd rfl h1
    | cons e t =>
      simp only [chunk3] at hl
      rcases List.mem_cons.mp hl with rfl | hl
      · simp only [List.mem_cons, List.not_mem_nil, or_false] at hd
        rcases hd with rfl | rfl | rfl <;> simp
      · have := ih l hl d hd
        simp [this]

theorem lookup_mem_snd :
    ∀ {l : List (Str × Str)} {k v : Str}, List.lookup k l = some v →
      v ∈ l.map Prod.snd := by
  intro l
  induction l with
  | nil => intro k v h; rw [List.lookup_nil] at h; exact Option.noConfusion h
  | cons p t ih =>
    intro k v h
    obtain ⟨pk, pv⟩ := p
    rw [List.lookup_cons] at h
    cases hb : (k == pk) with
    | true =>
      rw [hb] at h
      simp only at h
      rw [List.map_cons, ← Option.some.inj h]
      exact List.mem_cons_self _ _
    | false =>
      rw [hb] at h
      simp only at h
      exact List.mem_cons_of_mem _ (ih h)

theorem getRankEmoji_chars (r : Str) : ∀ c ∈ getRankEmoji r, c ≠ '[' := by
  unfold getRankEmoji
  cases hl : List.lookup (r.map Char.toLower) rankEmojis with
  | none =>
    intro c hc
    rw [List.mem_singleton.mp hc]
    decide
  | some e =>
    have hmem := lookup_mem_snd hl
    intro c hc
    fin_cases hmem <;> (rw [List.mem_singleton.mp hc]; decide)

theorem medal_chars (pos : Nat) : ∀ c ∈ medal pos, c ≠ '[' := by
  unfold medal
  split
  · intro c hc; rw [List.mem_singleton.mp hc]; decide
  split
  · intro c hc; rw [List.mem_singleton.mp hc]; decide
  · intro c hc; rw [List.mem_singleton.mp hc]; decide

theorem numToLocale_coe_chars (n : Nat) :
    ∀ c ∈ numToLocale (some (n : Int)), c ≠ '[' ∧ c ≠ '\n' := by
  intro c hc
  unfold numToLocale at hc
  simp only at hc
  rw [if_neg (by omega)] at hc
  rcases mem_intercalate hc with hc | ⟨g, hg, hc⟩
  · rw [List.mem_singleton.mp hc]
    exact ⟨by decide, by decide⟩
  · rw [List.mem_reverse] at hg
    obtain ⟨g0, hg0, rfl⟩ := List.mem_map.mp hg
    rw [List.mem_reverse] at hc
    have hsrc := chunk3_mem _ g0 hg0 c hc
    rw [List.mem_reverse] at hsrc
    have hdig := natDecStr_digits _ c hsrc
    exact ⟨char_ne_of_isDigit hdig (by decide), char_ne_of_isDigit hdig (by decide)⟩

theorem renderPlayerEntry_chars {pos : Nat} {p : Player} {se : Bool} {e : Str}
    (hp : encodable p) (he : renderPlayerEntry pos p se = some e) :
    ∀ c ∈ e, c ≠ '[' := by
  obtain ⟨⟨hidne, hid⟩, hu, hun, hcr, hpr, ⟨n1, h1⟩, ⟨n2, h2⟩, hdate⟩ := hp
  unfold renderPlayerEntry at he
  cases hf : formatDate p.lastUpdated with
  | none => rw [hf] at he; exact Option.noConfusion he
  | some fd =>
    rw [hf] at he
    simp only [Option.some.injEq] at he
    have hfd : fd = p.lastUpdated := by
      unfold formatDate at hf
      cases hpd : parseISODate p.lastUpdated with
      | none => rw [hpd] at hf; exact Option.noConfusion hf
      | some k => rw [hpd] at hf; exact (Option.some.inj hf).symm
    subst he
    intro c hc
    rcases mem_intercalate hc with hc | ⟨l, hl, hc⟩
    · rw [List.mem_singleton.mp hc]; decide
    simp only [List.mem_cons, List.not_mem_nil, or_false] at hl
    have hemoji : ∀ (r : Str), ∀ d ∈ (if se then getRankEmoji r else []), d ≠ '[' := by
      intro r d hd
      cases se with
      | true => exact getRankEmoji_chars r d hd
      | false => cases hd
    have hposd : ∀ d ∈ (if pos ≤ 3 then medal pos else natDecStr pos ++ ".".data),
        d ≠ '[' := by
      intro d hd
      by_cases h3 : pos ≤ 3
      · rw [if_pos h3] at hd
        exact medal_chars pos d hd
      · rw [if_neg h3] at hd
        rcases List.mem_append.mp hd with hd | hd
        · exact char_ne_of_isDigit (natDecStr_digits _ _ hd) (by decide)
        · rw [List.mem_singleton.mp hd]; decide
    rcases hl with rfl | rfl | rfl | rfl
    · rcases List.mem_append.mp hc with hc | hc
      rcases List.mem_append.mp hc with hc | hc
      rcases List.mem_append.mp hc with hc | hc
      · exact hposd c hc
      · fin_cases hc <;> decide
      · exact char_ne_of_isDigit (hid c hc) (by decide)
      · rw [List.mem_singleton.mp hc]; decide
    · rcases List.mem_append.mp hc with hc | hc
      rcases List.mem_append.mp hc with hc | hc
      rcases List.mem_append.mp hc with hc | hc
      rcases List.mem_append.mp hc with hc | hc
      rcases List.mem_append.mp hc with hc | hc
      · fin_cases hc <;> decide
      · exact hemoji _ c hc
      · rw [List.mem_singleton.mp hc]; decide
      · exact (hcr c hc).2.2
      · fin_cases hc <;> decide
      · rw [h1] at hc
        exact (numToLocale_coe_chars n1 c hc).1
    · rcases List.mem_append.mp hc with hc | hc
      rcases List.mem_append.mp hc with hc | hc
      rcases List.mem_append.mp hc with hc | hc
      rcases List.mem_append.mp hc with hc | hc
      rcases List.mem_append.mp hc with hc | hc
      · fin_cases hc <;> decide
      · exact hemoji _ c hc
      · rw [List.mem_singleton.mp hc]; decide
      · exact (hpr c hc).2.2
      · fin_cases hc <;> decide
      · rw [h2] at hc
        exact (numToLocale_coe_chars n2 c hc).1
    · rcases List.mem_append.mp hc with hc | hc
      · fin_cases hc <;> decide
      · rw [hfd] at hc
        exact (strictDateFormat_clean hdate c hc).2.2.2

theorem renderEntries_chars {se : Bool} :
    ∀ {pos : Nat} {ps : List Player} {es : List Str},
      (∀ p ∈ ps, encodable p) → renderEntries se pos ps = some es →
      ∀ l ∈ es, ∀ c ∈ l, c ≠ '[' := by
  intro pos ps
  induction ps generalizing pos with
  | nil =>
    intro es _ he
    rw [show renderEntries se pos [] = some [] from rfl] at he
    rw [← Option.some.inj he]
    intro l hl
    cases hl
  | cons p t ih =>
    intro es hps he
    unfold renderEntries at he
    cases hre : renderPlayerEntry pos p se with
    | none => rw [hre] at he; exact Option.noConfusion he
    | some e =>
      rw [hre] at he
      simp only [Option.bind_eq_bind, Option.some_bind] at he
      cases hres : renderEntries se (pos + 1) t with
      | none => rw [hres] at he; exact Option.noConfusion he
      | some es' =>
        rw [hres] at he
        simp only [Option.some_bind, Option.some.injEq] at he
        rw [← he]
        intro l hl
        rcases List.mem_cons.mp hl with rfl | hl
        · exact renderPlayerEntry_chars (hps p (List.mem_cons_self _ _)) hre
        rcases List.mem_cons.mp hl with rfl | hl
        · intro c hc; cases hc
        · exact ih (fun q hq => hps q (List.mem_cons_of_mem p hq)) hres l hl

theorem renderEntries_total {se : Bool} :
    ∀ (pos : Nat) (ps : List Player),
      (∀ p ∈ ps, (parseISODate p.lastUpdated).isSome) →
      ∃ es, renderEntries se pos ps = some es := by
  intro pos ps
  induction ps generalizing pos with
  | nil => intro _; exact ⟨[], rfl⟩
  | cons p t ih =>
    intro h
    obtain ⟨k, hk⟩ := Option.isSome_iff_exists.mp (h p (List.mem_cons_self _ _))
    obtain ⟨es, hes⟩ := ih (pos + 1) (fun q hq => h q (List.mem_cons_of_mem p hq))
    have hentry : ∃ e, renderPlayerEntry pos p se = some e := by
      unfold renderPlayerEntry formatDate
      rw [hk]
      exact ⟨_, rfl⟩
    obtain ⟨e, he⟩ := hentry
    refine ⟨e :: [] :: es, ?_⟩
    unfold renderEntries
    rw [he, hes]
    rfl

theorem intercalate_append_singleton {sep : Str} :
    ∀ (L : List Str), L ≠ [] → ∀ (x : Str),
      List.intercalate sep (L ++ [x]) = List.intercalate sep L ++ sep ++ x := by
  intro L
  induction L with
  | nil => intro h; exact absurd rfl h
  | cons y t ih =>
    intro _ x
    cases t with
    | nil =>
      rw [show ([y] ++ [x]) = [y, x] from rfl, intercalate_cons_cons,
        intercalate_singleton, intercalate_singleton]
    | cons z t' =>
      rw [show ((y :: z :: t') ++ [x]) = y :: ((z :: t') ++ [x]) from rfl]
      rw [show ((z :: t') ++ [x]) = z :: (t' ++ [x]) from rfl]
      rw [intercalate_cons_cons]
      rw [show (z :: (t' ++ [x])) = ((z :: t') ++ [x]) from rfl]
      rw [ih (by simp) x, intercalate_cons_cons]
      simp [List.append_assoc]


theorem renderLeaderboard_total {g : Str} {ps : List Player} {li : Option Str}
    {mp : Nat} {se : Bool} {now : Str}
    (h : ∀ p ∈ ps, (parseISODate p.lastUpdated).isSome) :
    ∃ s, renderLeaderboard g ps li mp se now = some s := by
  unfold renderLeaderboard
  by_cases hemp : ps.isEmpty
  · rw [if_pos hemp]
    exact ⟨_, rfl⟩
  · rw [if_neg hemp]
    obtain ⟨es, hes⟩ := renderEntries_total 1 (ps.take mp)
      (fun q hq => h q (List.mem_of_mem_take hq))
    rw [hes]
    exact ⟨_, rfl⟩

theorem renderLeaderboard_shape {g : Str} {ps : List Player} {li : Option Str}
    {mp : Nat} {se : Bool} {now content : Str}
    (hps : ∀ p ∈ ps, encodable p)
    (hg : ∀ c ∈ g.map Char.toUpper, c ≠ '[')
    (hn : ∀ c ∈ now, c ≠ '[')
    (hout : renderLeaderboard g ps li mp se now = some content) :
    ∃ pre, content = pre ++ encodeState li ps ∧ ∀ c ∈ pre, c ≠ '[' := by
  have hheader : ∀ c ∈ "🏆 ".data ++ g.map Char.toUpper ++ " LEADERBOARD".data,
      c ≠ '[' := by
    intro c hc
    rcases List.mem_append.mp hc with hc | hc
    rcases List.mem_append.mp hc with hc | hc
    · exact fun heq => absurd (heq ▸ hc) (by decide)
    · exact hg c hc
    · exact fun heq => absurd (heq ▸ hc) (by decide)
  have hfooter : ∀ l ∈ (["━━━━━━━━━━━━━━━━━━".data] ++
      (if ps.isEmpty then []
       else ["📊 Total Players: ".data ++ natDecStr ps.length] ++
         (if mp < ps.length then
            ["(Showing top ".data ++ natDecStr mp ++ ")".data]
          else [])) ++
      ["Updated: ".data ++ now, ([] : Str)]), ∀ c ∈ l, c ≠ '[' := by
    intro l hl c hc
    rcases List.mem_append.mp hl with hl | hl
    rcases List.mem_append.mp hl with hl | hl
    · rw [List.mem_singleton.mp hl] at hc
      exact fun heq => absurd (heq ▸ hc) (by decide)
    · by_cases hemp : ps.isEmpty
      · rw [if_pos hemp] at hl
        cases hl
      · rw [if_neg hemp] at hl
        rcases List.mem_append.mp hl with hl | hl
        · rw [List.mem_singleton.mp hl] at hc
          rcases List.mem_append.mp hc with hc | hc
          · exact fun heq => absurd (heq ▸ hc) (by decide)
          · exact char_ne_of_isDigit (natDecStr_digits _ _ hc) (by decide)
        · by_cases hmp : mp < ps.length
          · rw [if_pos hmp] at hl
            rw [List.mem_singleton.mp hl] at hc
            rcases List.mem_append.mp hc with hc | hc
            rcases List.mem_append.mp hc with hc | hc
            · exact fun heq => absurd (heq ▸ hc) (by decide)
            · exact char_ne_of_isDigit (natDecStr_digits _ _ hc) (by decide)
            · rw [List.mem_singleton.mp hc]; decide
          · rw [if_neg hmp] at hl
            cases hl
    rcases List.mem_cons.mp hl with rfl | hl
    · rcases List.mem_append.mp hc with hc | hc
      · exact fun heq => absurd (heq ▸ hc) (by decide)
      · exact hn c hc
    · rcases List.mem_cons.mp hl with rfl | hl
      · cases hc
      · cases hl
  unfold renderLeaderboard at hout
  by_cases hemp : ps.isEmpty
  · rw [if_pos hemp] at hout
    simp only [Option.bind_eq_bind, Option.some_bind, Option.some.injEq] at hout
    rw [intercalate_append_singleton _ (by simp) _] at hout
    refine ⟨_, hout.symm, ?_⟩
    · intro c hc
      rcases List.mem_append.mp hc with hc | hc
      · rcases mem_intercalate hc with hc | ⟨l, hl, hc⟩
        · rw [List.mem_singleton.mp hc]; decide
        rcases List.mem_append.mp hl with hl | hl
        · rcases List.mem_append.mp hl with hl | hl
          · rcases List.mem_cons.mp hl with rfl | hl
            · exact hheader c hc
            rcases List.mem_cons.mp hl with rfl | hl
            · cases hc
            cases hl
          · rcases List.mem_cons.mp hl with rfl | hl
            · exact fun heq => absurd (heq ▸ hc) (by decide)
            rcases List.mem_cons.mp hl with rfl | hl
            · cases hc
            rcases List.mem_cons.mp hl with rfl | hl
            · exact fun heq => absurd (heq ▸ hc) (by decide)
            cases hl
        · exact hfooter l hl c hc
      · rw [List.mem_singleton.mp hc]; decide
  · rw [if_neg hemp] at hout
    cases hre : renderEntries se 1 (ps.take mp) with
    | none =>
      rw [hre] at hout
      simp at hout
    | some es =>
      rw [hre] at hout
      simp only [Option.bind_eq_bind, Option.some_bind, Option.some.injEq] at hout
      rw [intercalate_append_singleton _ (by simp) _] at hout
      refine ⟨_, hout.symm, ?_⟩
      · intro c hc
        rcases List.mem_append.mp hc with hc | hc
        · rcases mem_intercalate hc with hc | ⟨l, hl, hc⟩
          · rw [List.mem_singleton.mp hc]; decide
          rcases List.mem_append.mp hl with hl | hl
          · have hl2 : l ∈ ["🏆 ".data ++ g.map Char.toUpper ++ " LEADERBOARD".data,
                ([] : Str)] ++ es := by
              by_cases hif : (["🏆 ".data ++ g.map Char.toUpper ++ " LEADERBOARD".data,
                  ([] : Str)] ++ es).getLast? = some ([] : Str)
              · rw [if_pos hif] at hl
                exact (List.dropLast_sublist _).subset hl
              · rw [if_neg hif] at hl
                exact hl
            rcases List.mem_cons.mp hl2 with rfl | hl2
            · exact hheader c hc
            rcases List.mem_cons.mp hl2 with rfl | hl2
            · cases hc
            · exact renderEntries_chars
                (fun q hq => hps q (List.mem_of_mem_take hq)) hre l hl2 c hc
          · exact hfooter l hl c hc
        · rw [List.mem_singleton.mp hc]; decide

theorem truncLoop_fuel_stable {g : Str} {ps : List Player} {li : Option Str}
    {now : Str} {ml : Nat} :
    ∀ (f1 : Nat) (f2 pc : Nat), pc < f1 → pc < f2 →
      truncLoop g ps li now ml f1 pc = truncLoop g ps li now ml f2 pc := by
  intro f1
  induction f1 with
  | zero => intro f2 pc h1 _; exact absurd h1 (Nat.not_lt_zero pc)
  | succ f ih =>
    intro f2 pc h1 h2
    cases f2 with
    | zero => exact absurd h2 (Nat.not_lt_zero pc)
    | succ f2' =>
      by_cases hpc : pc = 0
      · unfold truncLoop
        rw [if_pos hpc, if_pos hpc]
      · unfold truncLoop
        rw [if_neg hpc, if_neg hpc]
        cases hr : renderLeaderboard g (ps.take pc) li pc true now with
        | none => rfl
        | some rend =>
          simp only [Option.bind_eq_bind, Option.some_bind]
          by_cases hlen : jsLength rend ≤ ml
          · rw [if_pos hlen, if_pos hlen]
          · rw [if_neg hlen, if_neg hlen]
            exact ih f2' (pc / 2) (by omega) (by omega)

theorem truncLoop_some {g : Str} {ps : List Player} {li : Option Str}
    {now : Str} {ml : Nat} :
    ∀ (fuel pc : Nat) (r : Str) (k : Nat),
      truncLoop g ps li now ml fuel pc = some (some (r, k)) →
      0 < k ∧ k ≤ pc ∧ renderLeaderboard g (ps.take k) li k true now = some r ∧
        jsLength r ≤ ml := by
  intro fuel
  induction fuel with
  | zero =>
    intro pc r k h
    exact Option.noConfusion (Option.some.inj h)
  | succ f ih =>
    intro pc r k h
    unfold truncLoop at h
    by_cases hpc : pc = 0
    · rw [if_pos hpc] at h
      exact Option.noConfusion (Option.some.inj h)
    · rw [if_neg hpc] at h
      cases hr : renderLeaderboard g (ps.take pc) li pc true now with
      | none =>
        rw [hr] at h
        exact Option.noConfusion h
      | some rend =>
        rw [hr] at h
        simp only [Option.bind_eq_bind, Option.some_bind] at h
        by_cases hlen : jsLength rend ≤ ml
        · rw [if_pos hlen] at h
          have h2 := Option.some.inj (Option.some.inj h)
          have hre : rend = r := congrArg Prod.fst h2
          have hpk : pc = k := congrArg Prod.snd h2
          subst hre
          subst hpk
          exact ⟨Nat.pos_of_ne_zero hpc, Nat.le_refl pc, hr, hlen⟩
        · rw [if_neg hlen] at h
          obtain ⟨h1, h2, h3, h4⟩ := ih (pc / 2) r k h
          exact ⟨h1, Nat.le_trans h2 (Nat.div_le_self pc 2), h3, h4⟩

/-- C8 (amended): when the baseline render exceeds the budget and the halving
loop finds a count `k` whose render fits, `truncateIfNeeded` returns that
render with `truncated = true` and `shownCount = k`; the render is within
`maxLength` (1900 by default, hence within the 2000-character ceiling), `k`
is strictly smaller than the number of entities, and decoding the produced
text yields exactly the first `k` entities — `k` entity lines in the data
section.  (When no halving count fits, the code falls back to the top-3
render accepted regardless of its length, with `shownCount` hard-coded to 3;
see the counterexample.) -/
theorem truncateIfNeeded_loop_spec
    (gameName : Str) (players : List Player) (lastId : Option Str) (nowStr : Str)
    (maxLength : Nat) (r : Str) (k : Nat)
    (hps : ∀ p ∈ players, encodable p)
    (hdates : ∀ p ∈ players, (parseISODate p.lastUpdated).isSome)
    (hcur : cursorOk lastId)
    (hgame : ∀ c ∈ gameName.map Char.toUpper, c ≠ '[')
    (hnow : ∀ c ∈ nowStr, c ≠ '[')
    (hloop : truncLoop gameName players lastId nowStr maxLength
      (players.length + 2) (players.length / 2) = some (some (r, k)))
    (hbig : maxLength <
      jsLength ((renderLeaderboard gameName players lastId 50 true nowStr).getD [])) :
    truncateIfNeeded gameName players lastId nowStr maxLength =
      some ⟨r, true, some k⟩ ∧
    jsLength r ≤ maxLength ∧ 0 < k ∧ k < players.length ∧
    decodeState r = ⟨lastId, players.take k⟩ ∧
    (decodeState r).players.length = k := by
  obtain ⟨h1, h2, h3, h4⟩ := truncLoop_some (players.length + 2) (players.length / 2) r k hloop
  obtain ⟨base, hbase⟩ :
      ∃ s, renderLeaderboard gameName players lastId 50 true nowStr = some s :=
    renderLeaderboard_total hdates
  rw [hbase] at hbig
  simp only [Option.getD_some] at hbig
  have hklt : k < players.length := by
    have := Nat.div_le_self players.length 2
    rcases Nat.lt_or_ge players.length 2 with hsmall | hbig2
    · interval_cases hlen2 : players.length <;> omega
    · have : players.length / 2 < players.length := Nat.div_lt_self (by omega) (by omega)
      omega
  have htrunc : truncateIfNeeded gameName players lastId nowStr maxLength =
      some ⟨r, true, some k⟩ := by
    unfold truncateIfNeeded
    rw [hbase]
    simp only [Option.bind_eq_bind, Option.some_bind]
    rw [if_neg (by omega), hloop]
    rfl
  have hdec : decodeState r = ⟨lastId, players.take k⟩ := by
    obtain ⟨pre, hpre, hpreB⟩ := renderLeaderboard_shape
      (fun p hp => hps p (List.mem_of_mem_take hp)) hgame hnow h3
    rw [hpre]
    exact decodeState_append_encode pre lastId (players.take k) hpreB hcur
      (fun p hp => hps p (List.mem_of_mem_take hp))
  refine ⟨htrunc, h4, h1, hklt, hdec, ?_⟩
  rw [hdec]
  simp only
  rw [List.length_take]
  omega

/-- First witness entity for C8. -/
def c8w1 : Player :=
  ⟨"1".data, "Al".data, "Gold".data, some 10, "Gold".data, some 12, "2026-02-14".data⟩

/-- Second witness entity for C8. -/
def c8w2 : Player :=
  ⟨"2".data, "Bo".data, "Iron".data, some 5, "Iron".data, some 6, "2026-02-13".data⟩

/-- The render the halving loop settles on in the C8 witness scenario
(count halved from 2 to 1; extracted from the loop's own output). -/
def c8r : Str :=
  (((truncLoop "G".data [c8w1, c8w2] (some "9".data) "T".data 260 4 1).getD
    none).getD ([], 0)).1

set_option maxRecDepth 100000 in
/-- Witness for C8's amended theorem: with a 260-unit budget the two-entity
baseline render (316 units) does not fit, the loop settles on one entity
(207 units), and the truncated message still decodes to the cursor and the
first entity. -/
theorem truncateIfNeeded_loop_spec_witness :
    truncateIfNeeded "G".data [c8w1, c8w2] (some "9".data) "T".data 260 =
      some ⟨c8r, true, some 1⟩ ∧
    jsLength c8r ≤ 260 ∧ 0 < 1 ∧ 1 < ([c8w1, c8w2] : List Player).length ∧
    decodeState c8r = ⟨some "9".data, [c8w1, c8w2].take 1⟩ ∧
    (decodeState c8r).players.length = 1 :=
  truncateIfNeeded_loop_spec "G".data [c8w1, c8w2] (some "9".data) "T".data 260 c8r 1
    (by
      intro p hp
      rcases List.mem_cons.mp hp with rfl | hp
      · exact ⟨⟨by decide, by decide⟩, by decide, by decide, by decide, by decide,
          ⟨10, by decide⟩, ⟨12, by decide⟩, by decide⟩
      · rcases List.mem_singleton.mp hp with rfl
        exact ⟨⟨by decide, by decide⟩, by decide, by decide, by decide, by decide,
          ⟨5, by decide⟩, ⟨6, by decide⟩, by decide⟩)
    (by decide) ⟨by decide, by decide⟩ (by decide) (by decide) (by decide) (by decide)

/-- The oversized game name of the C8 counterexample: 1030 astral characters,
2060 UTF-16 units. -/
def c8g0 : Str := List.replicate 1030 '😀'

/-- The fallback render the C8 counterexample receives (top-3 of an empty
collection; extracted from the renderer's own output). -/
def c8fb : Str := (renderLeaderboard c8g0 [] none 50 true ['T']).getD []

set_option maxRecDepth 400000 in
/-- C8 counterexample: when no halved count fits, the fallback accepts the
top-3 render without re-checking its length and hard-codes `shownCount = 3`.
With an oversized game name and an empty collection the emitted message
exceeds the 2000-unit ceiling the claim asserts, and `shownCount` reports 3
entity lines while the data section decodes to 0 entities. -/
theorem truncateIfNeeded_fallback_overrun :
    truncateIfNeeded c8g0 [] none ['T'] 1900 = some ⟨c8fb, true, some 3⟩ ∧
    2000 < jsLength c8fb ∧
    (decodeState c8fb).players.length = 0 := by
  have hfb : renderLeaderboard c8g0 [] none 50 true ['T'] = some c8fb := by
    obtain ⟨b, hb⟩ : ∃ s, renderLeaderboard c8g0 [] none 50 true ['T'] = some s :=
      renderLeaderboard_total (fun p hp => absurd hp (List.not_mem_nil p))
    have hcb : c8fb = b := by unfold c8fb; rw [hb]; rfl
    rw [hcb, hb]
  have hbig : 2000 < jsLength c8fb := by decide
  have hg : ∀ c ∈ c8g0.map Char.toUpper, c ≠ '[' := by
    intro c hc
    obtain ⟨d, hd, rfl⟩ := List.mem_map.mp hc
    have := List.eq_of_mem_replicate hd
    subst this
    decide
  have hn : ∀ c ∈ (['T'] : Str), c ≠ '[' := by decide
  obtain ⟨pre, hpre, hpreB⟩ := renderLeaderboard_shape
    (fun p hp => absurd hp (List.not_mem_nil p)) hg hn hfb
  have hdec : decodeState c8fb = ⟨none, []⟩ := by
    rw [hpre]
    exact decodeState_append_encode pre none [] hpreB trivial
      (fun p hp => absurd hp (List.not_mem_nil p))
  have hloop0 : truncLoop c8g0 [] none ['T'] 1900
      (([] : List Player).length + 2) (([] : List Player).length / 2) = some none := by
    rfl
  have htrunc : truncateIfNeeded c8g0 [] none ['T'] 1900 =
      some ⟨c8fb, true, some 3⟩ := by
    unfold truncateIfNeeded
    rw [hfb]
    simp only [Option.bind_eq_bind, Option.some_bind]
    rw [if_neg (by omega), hloop0]
    simp only [Option.some_bind, List.take_nil]
    rw [hfb]
    rfl
  exact ⟨htrunc, hbig, by rw [hdec]; rfl⟩


end LBSync
